import Mathlib

set_option maxHeartbeats 1000000

/-
Shallow embedding of ankisync.py, the TiddlyRemember sync engine.
Pure data is modelled with Lean structures; the mutable Anki collection is
modelled as an explicit `Col` state threaded through every operation, and the
observable side effects of a run (field writes, card moves, scheduling seeds,
migrations, field comparisons) are recorded in an event trace so that temporal
and frame claims can be stated.  Modules that the engine calls but that are
not part of the source under verification (trmodels, twnote, util, and the
Anki collection API) are modelled from the spec; each such definition carries
a doc comment saying so.
-/

namespace TiddlyRemember

abbrev Twid := String

/-- Association lookup by key, first match wins; models Python dict access and
Anki field access by name. -/
def lookupKey {α : Type} (k : String) : List (String × α) → Option α
  | [] => none
  | (k2, v) :: rest => if k2 = k then some v else lookupKey k rest

/-- Modelled from the spec: the progress snapshot carried by a source note
(interval, ease factor, lapse count, due date).  Dates are modelled as whole
day numbers, so date subtraction is integer subtraction in days. -/
structure Schedule where
  ivl : Nat
  ease : Nat
  lapses : Nat
  due : Int
  deriving DecidableEq, Repr

/-- Modelled from the spec: a SourceNote (twnote.TwNote) as the sync engine
sees it: an id, a declared type (by name), content fields, an optional target
deck name, and an optional progress snapshot.  `target_deck` distinguishes an
absent deck (`none`) from an empty-string deck (`some ""`); Python `or`
treats both as falsy. -/
structure TwNote where
  id_ : Twid
  model : String
  fields : List (String × String)
  target_deck : Option String
  schedule : Option Schedule
  deriving DecidableEq, Repr

/-- Modelled from the spec: a registered note type schema (trmodels): its
name, its field names in order, and how many card templates it generates. -/
structure ModelDef where
  name : String
  fieldNames : List String
  templateCount : Nat
  deriving DecidableEq, Repr

/-- Modelled from the spec: the trmodels registry: the recognized type
schemas, the reserved id field name (trmodels.ID_FIELD_NAME), and the
field/card remap rules between any two type names (ModelDef.field_remap and
card_remap), given as ordinal maps old-position to optional new-position. -/
structure TrModels where
  models : List ModelDef
  idField : String
  fmapFn : String → String → List (Option Nat)
  cmapFn : String → String → List (Option Nat)

/-- Modelled from the spec: trmodels.by_name, looking a schema up by name. -/
def TrModels.by_name (tm : TrModels) (name : String) : Option ModelDef :=
  tm.models.find? (fun m => decide (m.name = name))

/-- A note persisted in the Anki collection: its numeric note id, its note
type name, and its fields (the reserved id field among them). -/
structure AnkiNote where
  nid : Nat
  model : String
  fields : List (String × String)
  deriving DecidableEq, Repr

/-- A card of a persisted note, with its own deck assignment and scheduling
state, as used by the engine. -/
structure Card where
  cid : Nat
  nid : Nat
  ord : Nat
  did : Nat
  queue : Int
  ctype : Int
  ivl : Nat
  factor : Nat
  lapses : Nat
  due : Int
  deriving DecidableEq, Repr

/-- Modelled from the spec: the Anki collection (target store) state visible
to the engine: notes, cards, decks (name to deck id), fresh-id counters, and
the current date as a day number (for due-date offsets). -/
structure Col where
  notes : List AnkiNote
  cards : List Card
  decks : List (String × Nat)
  nextNid : Nat
  nextCid : Nat
  nextDid : Nat
  today : Int
  deriving DecidableEq, Repr

/-- Observable side effects of a run, recorded in order: a note migrated to a
new type, a field-by-name comparison performed against a note of the given
type, a note whose fields were rewritten, a card moved to a deck, a note
whose cards received seeded scheduling. -/
inductive Event where
  | migrated : Twid → Event
  | fieldCompared : Twid → String → Event
  | fieldWrite : Twid → Event
  | cardMove : Nat → Nat → Event
  | seeded : Twid → Event
  deriving DecidableEq, Repr

/-- anki.consts.QUEUE_TYPE_REV. -/
def QUEUE_TYPE_REV : Int := 2

/-- anki.consts.CARD_TYPE_REV. -/
def CARD_TYPE_REV : Int := 2

/-- Modelled from the spec: the field contents twnote.TwNote.update_fields
writes into an Anki note: every field of the declared schema by name, the
reserved id field holding the note id. -/
def renderFields (tm : TrModels) (tw : TwNote) : List (String × String) :=
  match tm.by_name tw.model with
  | some m => m.fieldNames.map (fun fn =>
      (fn, if fn = tm.idField then tw.id_ else (lookupKey fn tw.fields).getD ""))
  | none => []

/-- Modelled from the spec: twnote.TwNote.update_fields, overwriting the
target note fields from the source note. -/
def TwNote.update_fields (tw : TwNote) (tm : TrModels) (n : AnkiNote) : AnkiNote :=
  { n with fields := renderFields tm tw }

/-- Modelled from the spec: twnote.TwNote.model_equal, comparing the target
note type against the source note declared type. -/
def TwNote.model_equal (tw : TwNote) (n : AnkiNote) : Bool :=
  decide (n.model = tw.model)

/-- Modelled from the spec: twnote.TwNote.fields_equal, a field-by-name
comparison: the target note fields match exactly what update_fields would
write. -/
def TwNote.fields_equal (tw : TwNote) (tm : TrModels) (n : AnkiNote) : Bool :=
  decide (n.fields = renderFields tm tw)

/-- The TiddlyWiki id stored in an Anki note reserved id field. -/
def twidOf (tm : TrModels) (n : AnkiNote) : Twid :=
  (lookupKey tm.idField n.fields).getD ""

/-- Modelled from the spec: col.decks.id, returning the id of an existing
deck by name and creating the deck if it does not exist. -/
def Col.decks_id (col : Col) (name : String) : Col × Nat :=
  match lookupKey name col.decks with
  | some d => (col, d)
  | none =>
      ({ col with decks := col.decks ++ [(name, col.nextDid)],
                  nextDid := col.nextDid + 1 },
       col.nextDid)

/-- The notes returned by col.find_notes over the model search string: every
note whose type is a recognized schema. -/
def Col.find_notes_model (col : Col) (tm : TrModels) : List AnkiNote :=
  col.notes.filter (fun n => (tm.by_name n.model).isSome)

/-- Field contents after a type change: position j of the new schema receives
the old value whose position maps to j under the ordinal field map. -/
def remapFields (fmap : List (Option Nat)) (newDef : ModelDef)
    (oldFields : List (String × String)) : List (String × String) :=
  (List.range newDef.fieldNames.length).map (fun j =>
    (newDef.fieldNames.getD j "",
      match (List.range oldFields.length).find?
          (fun i => decide (fmap.getD i none = some j)) with
      | some i => (oldFields.getD i ("", "")).2
      | none => ""))

/-- Modelled from the spec: col.models.change, changing one note type in
place given field and card remap tables: the note gets the new type name and
remapped fields; its cards keep their scheduling state and are re-templated
through the card map, cards with no correspondence being dropped, and cards
for templates newly introduced by the new type (ordinals of the new schema
hit by no remapped card of the note) are created fresh with default
scheduling.  The spec does not fix the deck of a fresh card; here it is
created in the deck of the first existing card of the note, and the engine
moves every card of the note into the resolved deck right afterwards
anyway. -/
def Col.models_change (col : Col) (tm : TrModels) (nid : Nat)
    (newModelName : String) (fmap cmap : List (Option Nat)) : Col :=
  { col with
    notes := col.notes.map (fun n =>
      if n.nid = nid then
        { n with model := newModelName,
                 fields := match tm.by_name newModelName with
                   | some d => remapFields fmap d n.fields
                   | none => n.fields }
      else n),
    cards := col.cards.filterMap (fun c =>
        if c.nid = nid then
          match cmap.getD c.ord none with
          | some o => some { c with ord := o }
          | none => none
        else some c) ++
      ((List.range (match tm.by_name newModelName with
        | some d => d.templateCount
        | none => 0)).filter (fun o =>
          decide (∀ c ∈ col.cards, c.nid = nid →
            cmap.getD c.ord none ≠ some o))).map (fun o =>
        { cid := col.nextCid + o, nid := nid, ord := o,
          did := ((col.cards.filter
            (fun c => decide (c.nid = nid))).head?.map Card.did).getD 0,
          queue := 0, ctype := 0, ivl := 0, factor := 0, lapses := 0,
          due := 0 : Card }),
    nextCid := col.nextCid + (match tm.by_name newModelName with
      | some d => d.templateCount
      | none => 0) }

/-- ankisync._change_note_type: asserts the current type is a recognized
schema (fatal otherwise), computes the field and card remaps, instructs the
store to change the type, and re-reads the migrated note. -/
def _change_note_type (tm : TrModels) (col : Col) (tw_note : TwNote)
    (anki_note : AnkiNote) : Except String (Col × AnkiNote) :=
  match tm.by_name anki_note.model with
  | none => Except.error
      ("A note of a type TiddlyRemember does not support (" ++ anki_note.model ++
       ") was found. TiddlyRemember does not know how to fix this note.")
  | some old_model_definition =>
      let fmap := tm.fmapFn old_model_definition.name tw_note.model
      let cmap := tm.cmapFn old_model_definition.name tw_note.model
      let col2 := col.models_change tm anki_note.nid tw_note.model fmap cmap
      match col2.notes.find? (fun n => decide (n.nid = anki_note.nid)) with
      | some n => Except.ok (col2, n)
      | none => Except.error "re-read of the migrated note failed"

/-- ankisync._set_initial_scheduling: when the source note carries a progress
snapshot, put every card of the note in review state with the snapshot
interval, ease and lapses, and set its due date through the store native
due-date mechanism at day offset (due - today); with no snapshot, do nothing.
The native set_due_date is modelled from the spec as due := today + offset. -/
def _set_initial_scheduling (tw_note : TwNote) (anki_nid : Nat) (col : Col) :
    Col × List Event :=
  match tw_note.schedule with
  | none => (col, [])
  | some sched =>
      let days_from_today := sched.due - col.today
      ({ col with cards := col.cards.map (fun c =>
          if c.nid = anki_nid then
            { c with queue := QUEUE_TYPE_REV, ctype := CARD_TYPE_REV,
                     ivl := sched.ivl, factor := sched.ease,
                     lapses := sched.lapses,
                     due := col.today + days_from_today }
          else c) },
       [Event.seeded tw_note.id_])

/-- The deck name expression tw_note.target_deck or default_deck: Python `or`
falls back to the default when target_deck is falsy, which covers both an
absent deck and the empty string. -/
def deckNameFor (tw_note : TwNote) (default_deck : String) : String :=
  match tw_note.target_deck with
  | none => default_deck
  | some s => if s = "" then default_deck else s

/-- ankisync._update_deck: resolve (or create) the desired deck and move every
card of the note that is not already there; each move is recorded. -/
def _update_deck (tw_note : TwNote) (anki_nid : Nat) (col : Col)
    (default_deck : String) : Col × List Event :=
  let deck_name := deckNameFor tw_note default_deck
  let r := col.decks_id deck_name
  ({ r.1 with cards := r.1.cards.map (fun c =>
      if c.nid = anki_nid ∧ c.did ≠ r.2 then { c with did := r.2 } else c) },
   (r.1.cards.filter (fun c => decide (c.nid = anki_nid ∧ c.did ≠ r.2))).map
     (fun c => Event.cardMove c.cid r.2))

/-- One iteration of the add loop of ankisync.sync: build a fresh note of the
declared type, fill its fields, resolve the deck, persist the note (creating
its template cards in that deck), then apply initial scheduling. -/
def addOne (tm : TrModels) (tw_note : TwNote) (col : Col)
    (default_deck : String) : Col × List Event :=
  let nid := col.nextNid
  let n : AnkiNote := { nid := nid, model := tw_note.model,
                        fields := renderFields tm tw_note }
  let r := col.decks_id (deckNameFor tw_note default_deck)
  let tcount := match tm.by_name tw_note.model with
    | some m => m.templateCount
    | none => 0
  let newCards := (List.range tcount).map (fun o =>
    { cid := r.1.nextCid + o, nid := nid, ord := o, did := r.2,
      queue := 0, ctype := 0, ivl := 0, factor := 0, lapses := 0,
      due := 0 : Card })
  let col2 := { r.1 with notes := r.1.notes ++ [n],
                         cards := r.1.cards ++ newCards,
                         nextNid := nid + 1,
                         nextCid := r.1.nextCid + tcount }
  _set_initial_scheduling tw_note nid col2

/-- One iteration of the edit loop of ankisync.sync: migrate the type first
when it differs (replacing the in-memory note by the re-read migrated note),
then compare fields and rewrite them only when they differ (counting 1), then
update the deck.  Returns the new state, the update count contribution, and
the events in order. -/
def editOne (tm : TrModels) (tw_note : TwNote) (anki_note : AnkiNote)
    (col : Col) (default_deck : String) :
    Except String (Col × Nat × List Event) :=
  let step : Except String (Col × AnkiNote × List Event) :=
    if tw_note.model_equal anki_note then
      Except.ok (col, anki_note, [])
    else
      match _change_note_type tm col tw_note anki_note with
      | Except.error e => Except.error e
      | Except.ok (c2, n2) => Except.ok (c2, n2, [Event.migrated tw_note.id_])
  match step with
  | Except.error e => Except.error e
  | Except.ok (col1, note1, ev1) =>
      let ev2 := ev1 ++ [Event.fieldCompared tw_note.id_ note1.model]
      if tw_note.fields_equal tm note1 then
        let r := _update_deck tw_note note1.nid col1 default_deck
        Except.ok (r.1, 0, ev2 ++ r.2)
      else
        let note2 := tw_note.update_fields tm note1
        let col2 := { col1 with notes := col1.notes.map (fun n =>
          if n.nid = note2.nid then note2 else n) }
        let r := _update_deck tw_note note2.nid col2 default_deck
        Except.ok (r.1, 1, ev2 ++ [Event.fieldWrite tw_note.id_] ++ r.2)

/-- The add loop of ankisync.sync over the ids to add. -/
def runAdds (tm : TrModels) (lk : Twid → Option TwNote) (default_deck : String) :
    List Twid → Col → List Event → Col × List Event
  | [], col, evs => (col, evs)
  | id :: rest, col, evs =>
      match lk id with
      | some tw =>
          let r := addOne tm tw col default_deck
          runAdds tm lk default_deck rest r.1 (evs ++ r.2)
      | none => runAdds tm lk default_deck rest col evs

/-- The edit loop of ankisync.sync over the ids to edit, accumulating the
update count and the event trace; a fatal migration error stops the loop at
once, leaving the state already reached intact and the remaining ids
unprocessed. -/
def runEdits (tm : TrModels) (lkTw : Twid → Option TwNote)
    (lkAnki : Twid → Option AnkiNote) (default_deck : String) :
    List Twid → Col → Nat → List Event → Col × Nat × List Event × Option String
  | [], col, cnt, evs => (col, cnt, evs, none)
  | id :: rest, col, cnt, evs =>
      match lkTw id, lkAnki id with
      | some tw, some an =>
          match editOne tm tw an col default_deck with
          | Except.error e => (col, cnt, evs, some e)
          | Except.ok (col1, d, ev1) =>
              runEdits tm lkTw lkAnki default_deck rest col1 (cnt + d) (evs ++ ev1)
      | _, _ => (col, cnt, evs, some "note missing from sync maps")

/-- Modelled from the spec: col.remove_notes, bulk deletion of notes by id;
the cards of a deleted note are deleted with it. -/
def Col.remove_notes (col : Col) (nids : List Nat) : Col :=
  { col with notes := col.notes.filter (fun n => decide (n.nid ∉ nids)),
             cards := col.cards.filter (fun c => decide (c.nid ∉ nids)) }

/-- Modelled from the spec: util.pluralize, singular for a count of one,
plural otherwise. -/
def pluralize (word : String) (n : Nat) : String :=
  if n = 1 then word else word ++ "s"

/-- extracted_twids.difference(anki_twids): the ids to add. -/
def idDiffAdds (src tgt : List Twid) : List Twid :=
  src.filter (fun i => decide (i ∉ tgt))

/-- extracted_twids.intersection(anki_twids): the ids to edit. -/
def idDiffEdits (src tgt : List Twid) : List Twid :=
  src.filter (fun i => decide (i ∈ tgt))

/-- anki_twids.difference(extracted_twids): the ids to remove. -/
def idDiffRemoves (src tgt : List Twid) : List Twid :=
  tgt.filter (fun i => decide (i ∉ src))

/-- The set of source note ids, as a duplicate-free list. -/
def extractedTwids (tw_notes : List TwNote) : List Twid :=
  (tw_notes.map TwNote.id_).dedup

/-- extracted_notes_map: lookup of a source note by id, later entries winning
as in a Python dict comprehension. -/
def lookupTw (tw_notes : List TwNote) : Twid → Option TwNote :=
  fun i => tw_notes.reverse.find? (fun n => decide (n.id_ = i))

/-- The set of ids of recognized-type notes in the collection, as a
duplicate-free list. -/
def ankiTwids (tm : TrModels) (col : Col) : List Twid :=
  ((col.find_notes_model tm).map (twidOf tm)).dedup

/-- anki_notes_map: lookup of a recognized-type collection note by id, later
entries winning. -/
def lookupAnki (tm : TrModels) (col : Col) : Twid → Option AnkiNote :=
  fun i => (col.find_notes_model tm).reverse.find? (fun n => decide (twidOf tm n = i))

/-- The ids the diff marks for addition on this run. -/
def addsOf (tm : TrModels) (tw_notes : List TwNote) (col : Col) : List Twid :=
  idDiffAdds (extractedTwids tw_notes) (ankiTwids tm col)

/-- The ids the diff marks for editing on this run. -/
def editsOf (tm : TrModels) (tw_notes : List TwNote) (col : Col) : List Twid :=
  idDiffEdits (extractedTwids tw_notes) (ankiTwids tm col)

/-- The ids the diff marks for removal on this run. -/
def removesOf (tm : TrModels) (tw_notes : List TwNote) (col : Col) : List Twid :=
  idDiffRemoves (extractedTwids tw_notes) (ankiTwids tm col)

/-- Outcome of a run: the three-line user log, or a fatal error message. -/
inductive SyncOutcome where
  | ok : String → SyncOutcome
  | fatal : String → SyncOutcome
  deriving DecidableEq, Repr

/-- A completed run: final collection state, event trace, outcome. -/
structure SyncRun where
  col : Col
  events : List Event
  outcome : SyncOutcome
  deriving DecidableEq, Repr

/-- ankisync.sync: diff the id sets, run the add loop, the edit loop and the
bulk removal, and return the three-line summary; a fatal migration error
aborts the run with the state reached so far. -/
def sync (tm : TrModels) (tw_notes : List TwNote) (col : Col)
    (default_deck : String) : SyncRun :=
  let adds := addsOf tm tw_notes col
  let edits := editsOf tm tw_notes col
  let removes := removesOf tm tw_notes col
  let addRes := runAdds tm (lookupTw tw_notes) default_deck adds col []
  let line1 := "Added " ++ toString adds.length ++ " " ++
    pluralize "note" adds.length ++ "."
  match runEdits tm (lookupTw tw_notes) (lookupAnki tm col) default_deck
      edits addRes.1 0 addRes.2 with
  | (col2, _, ev2, some e) =>
      { col := col2, events := ev2, outcome := SyncOutcome.fatal e }
  | (col2, cnt, ev2, none) =>
      let line2 := "Updated " ++ toString cnt ++ " " ++
        pluralize "note" cnt ++ "."
      let col3 := col2.remove_notes
        (removes.filterMap (fun i => (lookupAnki tm col i).map AnkiNote.nid))
      let line3 := "Removed " ++ toString removes.length ++ " " ++
        pluralize "note" removes.length ++ "."
      { col := col3, events := ev2,
        outcome := SyncOutcome.ok (line1 ++ "\n" ++ line2 ++ "\n" ++ line3) }

/-- The ids of recognized-type notes currently in the collection. -/
def recognizedTwids (tm : TrModels) (col : Col) : List Twid :=
  (col.find_notes_model tm).map (twidOf tm)

/-- Number of field-write events in a trace. -/
def countFieldWrites (evs : List Event) : Nat :=
  (evs.filter (fun e => match e with | Event.fieldWrite _ => true | _ => false)).length

/-- Number of card-move events in a trace. -/
def countCardMoves (evs : List Event) : Nat :=
  (evs.filter (fun e => match e with | Event.cardMove _ _ => true | _ => false)).length

/-
Concrete fixture used to witness the theorems below, mirroring the two note
types TiddlyRemember registers (a question-and-answer type and a cloze type),
with the id field mapped to itself under migration.
-/

/-- A question-and-answer schema for the fixture registry. -/
def qaModel : ModelDef :=
  { name := "TiddlyRemember Q&A v1", fieldNames := ["ID", "Question", "Answer"],
    templateCount := 1 }

/-- A cloze schema for the fixture registry. -/
def clozeModel : ModelDef :=
  { name := "TiddlyRemember Cloze v1", fieldNames := ["ID", "Text"],
    templateCount := 1 }

/-- A concrete schema registry with the two fixture schemas. -/
def tmFix : TrModels :=
  { models := [qaModel, clozeModel], idField := "ID",
    fmapFn := fun _ _ => [some 0, none, none], cmapFn := fun _ _ => [some 0] }

/-- A concrete source note of the question-and-answer type. -/
def twA : TwNote :=
  { id_ := "1001", model := "TiddlyRemember Q&A v1",
    fields := [("Question", "2+2"), ("Answer", "4")],
    target_deck := some "Math", schedule := none }

/-- A concrete source note with an empty-string target deck and a progress
snapshot. -/
def twB : TwNote :=
  { id_ := "1002", model := "TiddlyRemember Q&A v1",
    fields := [("Question", "3+3"), ("Answer", "6")],
    target_deck := some "",
    schedule := some { ivl := 10, ease := 2500, lapses := 1, due := 20005 } }

/-- A concrete empty starting collection with one pre-existing deck. -/
def col0 : Col :=
  { notes := [], cards := [], decks := [("Default", 1)],
    nextNid := 10, nextCid := 100, nextDid := 2, today := 20000 }

/-- A concrete collection holding one recognized note of the
question-and-answer type with id 1001 and one card. -/
def col1 : Col :=
  { notes := [{ nid := 10, model := "TiddlyRemember Q&A v1",
                fields := [("ID", "1001"), ("Question", "2+2"), ("Answer", "4")] }],
    cards := [{ cid := 100, nid := 10, ord := 0, did := 2, queue := 0,
                ctype := 0, ivl := 0, factor := 0, lapses := 0, due := 0 }],
    decks := [("Default", 1), ("Math", 2)],
    nextNid := 11, nextCid := 101, nextDid := 3, today := 20000 }

/-- A concrete note of an unrecognized type carrying the id 1001. -/
def corruptNote : AnkiNote :=
  { nid := 10, model := "Basic",
    fields := [("ID", "1001"), ("Front", "2+2"), ("Back", "4")] }

/-- A concrete source note sharing the id 1001 but declaring the cloze type. -/
def twACloze : TwNote :=
  { id_ := "1001", model := "TiddlyRemember Cloze v1",
    fields := [("Text", "2+2 is 4")], target_deck := none, schedule := none }

/-- The persisted note of col1, as read into memory. -/
def ankiA : AnkiNote :=
  { nid := 10, model := "TiddlyRemember Q&A v1",
    fields := [("ID", "1001"), ("Question", "2+2"), ("Answer", "4")] }

/-
Basic frame lemmas about the store operations.
-/

theorem lookupKey_append_left {α : Type} {k : String} {l1 l2 : List (String × α)}
    {v : α} (h : lookupKey k l1 = some v) : lookupKey k (l1 ++ l2) = some v := by
  induction l1 with
  | nil => simp [lookupKey] at h
  | cons p rest ih =>
      obtain ⟨k2, w⟩ := p
      by_cases hk : k2 = k
      · simpa [lookupKey, hk] using h
      · simp only [lookupKey, if_neg hk] at h ⊢
        exact ih h

theorem lookupKey_append_none {α : Type} {k : String} {l1 l2 : List (String × α)}
    (h : lookupKey k l1 = none) : lookupKey k (l1 ++ l2) = lookupKey k l2 := by
  induction l1 with
  | nil => simp [lookupKey]
  | cons p rest ih =>
      obtain ⟨k2, w⟩ := p
      by_cases hk : k2 = k
      · simp [lookupKey, hk] at h
      · simp only [lookupKey, if_neg hk] at h ⊢
        exact ih h

@[simp] theorem decks_id_notes (col : Col) (name : String) :
    (col.decks_id name).1.notes = col.notes := by
  unfold Col.decks_id
  cases h : lookupKey name col.decks <;> simp

@[simp] theorem decks_id_cards (col : Col) (name : String) :
    (col.decks_id name).1.cards = col.cards := by
  unfold Col.decks_id
  cases h : lookupKey name col.decks <;> simp

@[simp] theorem decks_id_nextNid (col : Col) (name : String) :
    (col.decks_id name).1.nextNid = col.nextNid := by
  unfold Col.decks_id
  cases h : lookupKey name col.decks <;> simp

@[simp] theorem decks_id_nextCid (col : Col) (name : String) :
    (col.decks_id name).1.nextCid = col.nextCid := by
  unfold Col.decks_id
  cases h : lookupKey name col.decks <;> simp

@[simp] theorem decks_id_today (col : Col) (name : String) :
    (col.decks_id name).1.today = col.today := by
  unfold Col.decks_id
  cases h : lookupKey name col.decks <;> simp

theorem decks_id_lookup_self (col : Col) (name : String) :
    lookupKey name (col.decks_id name).1.decks = some (col.decks_id name).2 := by
  unfold Col.decks_id
  cases h : lookupKey name col.decks with
  | some d => simpa using h
  | none =>
      have h2 : lookupKey name (col.decks ++ [(name, col.nextDid)]) =
          lookupKey name [(name, col.nextDid)] := lookupKey_append_none h
      simp only [h2]
      simp [lookupKey]

theorem decks_id_lookup_mono (col : Col) (name x : String) {d : Nat}
    (h : lookupKey x col.decks = some d) :
    lookupKey x (col.decks_id name).1.decks = some d := by
  unfold Col.decks_id
  cases h2 : lookupKey name col.decks with
  | some d2 => simpa using h
  | none => simpa using lookupKey_append_left h

/-
C2.
-/

/-- C2: the identifier diff produces exactly toAdd = sourceIds minus
targetIds, toEdit = sourceIds intersect targetIds, toRemove = targetIds minus
sourceIds, and the three sets are pairwise disjoint. -/
theorem diff_partitions_ids (src tgt : List Twid) :
    (idDiffAdds src tgt).toFinset = src.toFinset \ tgt.toFinset ∧
    (idDiffEdits src tgt).toFinset = src.toFinset ∩ tgt.toFinset ∧
    (idDiffRemoves src tgt).toFinset = tgt.toFinset \ src.toFinset ∧
    Disjoint (idDiffAdds src tgt).toFinset (idDiffEdits src tgt).toFinset ∧
    Disjoint (idDiffAdds src tgt).toFinset (idDiffRemoves src tgt).toFinset ∧
    Disjoint (idDiffEdits src tgt).toFinset (idDiffRemoves src tgt).toFinset := by
  refine ⟨?_, ?_, ?_, ?_, ?_, ?_⟩
  · ext i; simp [idDiffAdds, List.mem_filter]
  · ext i; simp [idDiffEdits, List.mem_filter]
  · ext i; simp [idDiffRemoves, List.mem_filter]
  · rw [Finset.disjoint_left]
    intro i hi hj
    simp [idDiffAdds, idDiffEdits, List.mem_filter] at hi hj
    exact hi.2 hj.2
  · rw [Finset.disjoint_left]
    intro i hi hj
    simp [idDiffAdds, idDiffRemoves, List.mem_filter] at hi hj
    exact hi.2 hj.1
  · rw [Finset.disjoint_left]
    intro i hi hj
    simp [idDiffEdits, idDiffRemoves, List.mem_filter] at hi hj
    exact hj.2 hi.1

@[simp] theorem set_initial_scheduling_notes (tw : TwNote) (nid : Nat) (col : Col) :
    (_set_initial_scheduling tw nid col).1.notes = col.notes := by
  cases h : tw.schedule <;> simp [_set_initial_scheduling, h]

@[simp] theorem set_initial_scheduling_decks (tw : TwNote) (nid : Nat) (col : Col) :
    (_set_initial_scheduling tw nid col).1.decks = col.decks := by
  cases h : tw.schedule <;> simp [_set_initial_scheduling, h]

@[simp] theorem set_initial_scheduling_nextNid (tw : TwNote) (nid : Nat) (col : Col) :
    (_set_initial_scheduling tw nid col).1.nextNid = col.nextNid := by
  cases h : tw.schedule <;> simp [_set_initial_scheduling, h]

@[simp] theorem set_initial_scheduling_today (tw : TwNote) (nid : Nat) (col : Col) :
    (_set_initial_scheduling tw nid col).1.today = col.today := by
  cases h : tw.schedule <;> simp [_set_initial_scheduling, h]

theorem set_initial_scheduling_cards_shape (tw : TwNote) (nid : Nat) (col : Col) :
    ∃ g : Card → Card, (_set_initial_scheduling tw nid col).1.cards = col.cards.map g ∧
      ∀ c, (g c).nid = c.nid ∧ (g c).did = c.did ∧ (g c).cid = c.cid ∧
        (g c).ord = c.ord := by
  cases h : tw.schedule with
  | none => exact ⟨id, by simp [_set_initial_scheduling, h], by simp⟩
  | some sched =>
      refine ⟨fun c =>
        if c.nid = nid then
          { c with queue := QUEUE_TYPE_REV, ctype := CARD_TYPE_REV,
                   ivl := sched.ivl, factor := sched.ease, lapses := sched.lapses,
                   due := col.today + (sched.due - col.today) }
        else c, by simp [_set_initial_scheduling, h], ?_⟩
      intro c
      by_cases hc : c.nid = nid <;> simp [hc]

/-
C5.
-/

/-- C5: for a newly created note whose source note carries a progress
snapshot, the scheduling seeder puts every card of the note in review state
(queue and type flags), sets its interval, ease factor and lapse count from
the snapshot, and sets its due date through the store native due-date
mechanism at day offset (due - today). -/
theorem seeder_applies_snapshot (tw : TwNote) (nid : Nat) (col : Col)
    (sched : Schedule) (h : tw.schedule = some sched) :
    ∀ c ∈ (_set_initial_scheduling tw nid col).1.cards, c.nid = nid →
      c.queue = QUEUE_TYPE_REV ∧ c.ctype = CARD_TYPE_REV ∧
      c.ivl = sched.ivl ∧ c.factor = sched.ease ∧ c.lapses = sched.lapses ∧
      c.due = col.today + (sched.due - col.today) := by
  intro c hc hnid
  simp only [_set_initial_scheduling, h, List.mem_map] at hc
  obtain ⟨a, _, rfl⟩ := hc
  by_cases ha : a.nid = nid
  · simp [ha]
  · simp only [if_neg ha] at hnid ⊢
    exact absurd hnid ha

/-- Witness for C5 at a concrete snapshot-carrying note and collection. -/
theorem seeder_applies_snapshot_witness :
    twB.schedule = some { ivl := 10, ease := 2500, lapses := 1, due := 20005 } ∧
    (∀ c ∈ (_set_initial_scheduling twB 10 col1).1.cards, c.nid = 10 →
      c.queue = QUEUE_TYPE_REV ∧ c.ctype = CARD_TYPE_REV ∧
      c.ivl = 10 ∧ c.factor = 2500 ∧ c.lapses = 1 ∧
      c.due = col1.today + (20005 - col1.today)) :=
  ⟨rfl, seeder_applies_snapshot twB 10 col1 _ rfl⟩

/-
C8.
-/

/-- C8: for a newly created note whose source note carries no progress
snapshot, the seeder performs no mutation at all and reports no error, and
the rest of the add handling proceeds normally: the new note is still
persisted with its rendered fields. -/
theorem seeder_skips_without_snapshot (tm : TrModels) (tw : TwNote) (nid : Nat)
    (col : Col) (dd : String) (h : tw.schedule = none) :
    _set_initial_scheduling tw nid col = (col, []) ∧
    (addOne tm tw col dd).1.notes =
      col.notes ++ [{ nid := col.nextNid, model := tw.model,
                      fields := renderFields tm tw }] := by
  constructor
  · simp [_set_initial_scheduling, h]
  · show (_set_initial_scheduling tw col.nextNid _).1.notes = _
    rw [set_initial_scheduling_notes]
    simp

/-- Witness for C8 at a concrete snapshot-free note. -/
theorem seeder_skips_without_snapshot_witness :
    twA.schedule = none ∧
    (_set_initial_scheduling twA 10 col1 = (col1, []) ∧
     (addOne tmFix twA col1 "Default").1.notes =
       col1.notes ++ [{ nid := col1.nextNid, model := twA.model,
                        fields := renderFields tmFix twA }]) :=
  ⟨rfl, seeder_skips_without_snapshot tmFix twA 10 col1 "Default" rfl⟩

/-
C10.
-/

/-- C10: in both the add path and the edit path, a source note whose target
deck is the empty string (not only an absent deck) is placed in the
caller-supplied default deck: the resolved deck name is the default whenever
the target deck is falsy. -/
theorem empty_target_deck_uses_default (tm : TrModels) (tw : TwNote) (nid : Nat)
    (col : Col) (dd : String) (h : tw.target_deck = some "") :
    deckNameFor tw dd = dd ∧
    (∀ c ∈ (_update_deck tw nid col dd).1.cards, c.nid = nid →
        c.did = (col.decks_id dd).2) ∧
    ((∀ c ∈ col.cards, c.nid ≠ col.nextNid) →
      ∀ c ∈ (addOne tm tw col dd).1.cards, c.nid = col.nextNid →
        c.did = (col.decks_id dd).2) := by
  have hdn : deckNameFor tw dd = dd := by simp [deckNameFor, h]
  refine ⟨hdn, ?_, ?_⟩
  · intro c hc hnid
    simp only [_update_deck, hdn, List.mem_map] at hc
    obtain ⟨a, ha, rfl⟩ := hc
    by_cases hcond : a.nid = nid ∧ a.did ≠ (col.decks_id dd).2
    · simp [hcond]
    · simp only [if_neg hcond] at hnid ⊢
      rcases not_and_or.mp hcond with h1 | h2
      · exact absurd hnid h1
      · exact not_not.mp h2
  · intro hfresh c hc hnid
    obtain ⟨g, hg, hgp⟩ := set_initial_scheduling_cards_shape tw col.nextNid
      { (col.decks_id (deckNameFor tw dd)).1 with
        notes := (col.decks_id (deckNameFor tw dd)).1.notes ++
          [{ nid := col.nextNid, model := tw.model, fields := renderFields tm tw }],
        cards := (col.decks_id (deckNameFor tw dd)).1.cards ++
          (List.range (match tm.by_name tw.model with
            | some m => m.templateCount
            | none => 0)).map (fun o =>
            { cid := (col.decks_id (deckNameFor tw dd)).1.nextCid + o,
              nid := col.nextNid, ord := o, did := (col.decks_id (deckNameFor tw dd)).2,
              queue := 0, ctype := 0, ivl := 0, factor := 0, lapses := 0,
              due := 0 : Card }),
        nextNid := col.nextNid + 1,
        nextCid := (col.decks_id (deckNameFor tw dd)).1.nextCid +
          (match tm.by_name tw.model with
            | some m => m.templateCount
            | none => 0) }
    simp only [addOne] at hc
    rw [hg] at hc
    simp only [decks_id_cards, List.map_append, List.mem_append, List.mem_map] at hc
    rcases hc with ⟨a, ha, rfl⟩ | ⟨o, ⟨a, ha2, rfl⟩, rfl⟩
    · rw [(hgp a).1] at hnid
      exact absurd hnid (hfresh a ha)
    · rw [(hgp _).2.1]
      simp [hdn]

/-- Witness for C10 at a concrete empty-string-deck note. -/
theorem empty_target_deck_uses_default_witness :
    twB.target_deck = some "" ∧
    (deckNameFor twB "Default" = "Default" ∧
     (∀ c ∈ (_update_deck twB 10 col0 "Default").1.cards, c.nid = 10 →
         c.did = (col0.decks_id "Default").2) ∧
     ((∀ c ∈ col0.cards, c.nid ≠ col0.nextNid) →
       ∀ c ∈ (addOne tmFix twB col0 "Default").1.cards, c.nid = col0.nextNid →
         c.did = (col0.decks_id "Default").2)) :=
  ⟨rfl, empty_target_deck_uses_default tmFix twB 10 col0 "Default" rfl⟩

/-
C7.
-/

/-- C7: an edited note whose current target-side type is not a recognized
schema makes the run abort fatally at that note: the state already reached,
the update count and the trace are left exactly as they were (no rollback,
and no migration of that note is attempted), and no further ids are
processed. -/
theorem unrecognized_type_aborts (tm : TrModels) (lkTw : Twid → Option TwNote)
    (lkAnki : Twid → Option AnkiNote) (dd : String) (id : Twid)
    (rest : List Twid) (col : Col) (cnt : Nat) (evs : List Event)
    (tw : TwNote) (an : AnkiNote)
    (h1 : lkTw id = some tw) (h2 : lkAnki id = some an)
    (h3 : tm.by_name an.model = none) (h4 : (tm.by_name tw.model).isSome) :
    runEdits tm lkTw lkAnki dd (id :: rest) col cnt evs =
      (col, cnt, evs,
       some ("A note of a type TiddlyRemember does not support (" ++ an.model ++
         ") was found. TiddlyRemember does not know how to fix this note.")) := by
  have hne : an.model ≠ tw.model := by
    intro he
    rw [← he, h3] at h4
    simp at h4
  have hme : tw.model_equal an = false := by
    simp [TwNote.model_equal, hne]
  simp [runEdits, h1, h2, editOne, hme, _change_note_type, h3]

/-- Witness for C7 at a concrete corrupt note. -/
theorem unrecognized_type_aborts_witness :
    (fun _ : Twid => some twA) "1001" = some twA ∧
    (fun _ : Twid => some corruptNote) "1001" = some corruptNote ∧
    tmFix.by_name corruptNote.model = none ∧
    (tmFix.by_name twA.model).isSome ∧
    runEdits tmFix (fun _ => some twA) (fun _ => some corruptNote) "Default"
        ["1001", "1002"] col1 0 [] =
      (col1, 0, [],
       some ("A note of a type TiddlyRemember does not support (" ++
         corruptNote.model ++
         ") was found. TiddlyRemember does not know how to fix this note.")) :=
  ⟨rfl, rfl, by decide, by decide,
   unrecognized_type_aborts tmFix _ _ "Default" "1001" ["1002"] col1 0 []
     twA corruptNote rfl rfl (by decide) (by decide)⟩

/-
C4.
-/

theorem change_note_type_model {tm : TrModels} {col : Col} {tw : TwNote}
    {an : AnkiNote} {c2 : Col} {n2 : AnkiNote}
    (h : _change_note_type tm col tw an = Except.ok (c2, n2)) :
    n2.model = tw.model := by
  unfold _change_note_type at h
  cases hb : tm.by_name an.model with
  | none => rw [hb] at h; exact absurd h (by simp)
  | some old =>
      rw [hb] at h
      simp only at h
      cases hf : (col.models_change tm an.nid tw.model (tm.fmapFn old.name tw.model)
          (tm.cmapFn old.name tw.model)).notes.find?
          (fun n => decide (n.nid = an.nid)) with
      | none => rw [hf] at h; exact absurd h (by simp)
      | some n =>
          rw [hf] at h
          simp only [Except.ok.injEq, Prod.mk.injEq] at h
          obtain ⟨-, rfl⟩ := h
          have hmem := List.mem_of_find?_eq_some hf
          have hpred := List.find?_some hf
          simp only [decide_eq_true_eq] at hpred
          simp only [Col.models_change, List.mem_map] at hmem
          obtain ⟨x, -, rfl⟩ := hmem
          by_cases hx : x.nid = an.nid
          · simp [hx]
          · simp only [if_neg hx] at hpred ⊢
            exact absurd hpred hx

theorem update_deck_events_are_moves (tw : TwNote) (nid : Nat) (col : Col)
    (dd : String) :
    ∀ e ∈ (_update_deck tw nid col dd).2, ∃ c d2, e = Event.cardMove c d2 := by
  intro e he
  simp only [_update_deck, List.mem_map] at he
  obtain ⟨a, -, rfl⟩ := he
  exact ⟨a.cid, _, rfl⟩

/-- C4: when an edited note's target-side type differs from the source
declared type, a successful edit step migrates first and only then performs
the field comparison, and that comparison is made against the freshly re-read
migrated note (its type is the source declared type); no other field
comparison happens in the step, so a comparison against the pre-migration
note never occurs. -/
theorem migration_precedes_field_compare (tm : TrModels) (tw : TwNote)
    (an : AnkiNote) (col : Col) (dd : String) (col1 : Col) (d : Nat)
    (evs : List Event)
    (hm : tw.model_equal an = false)
    (hok : editOne tm tw an col dd = Except.ok (col1, d, evs)) :
    ∃ rest, evs = Event.migrated tw.id_ ::
        Event.fieldCompared tw.id_ tw.model :: rest ∧
      ∀ i m, Event.fieldCompared i m ∉ rest := by
  unfold editOne at hok
  rw [hm] at hok
  simp only [Bool.false_eq_true, if_false] at hok
  cases hcn : _change_note_type tm col tw an with
  | error e => rw [hcn] at hok; exact absurd hok (by simp)
  | ok p =>
      obtain ⟨c2, n2⟩ := p
      rw [hcn] at hok
      have hn2 : n2.model = tw.model := change_note_type_model hcn
      simp only at hok
      by_cases hfe : tw.fields_equal tm n2
      · rw [if_pos hfe] at hok
        simp only [Except.ok.injEq, Prod.mk.injEq] at hok
        obtain ⟨-, -, rfl⟩ := hok
        refine ⟨(_update_deck tw n2.nid c2 dd).2, by simp [hn2], ?_⟩
        intro i m hmem
        obtain ⟨c, d2, he⟩ := update_deck_events_are_moves tw n2.nid c2 dd _ hmem
        exact Event.noConfusion he
      · rw [if_neg hfe] at hok
        simp only [Except.ok.injEq, Prod.mk.injEq] at hok
        obtain ⟨-, -, rfl⟩ := hok
        refine ⟨Event.fieldWrite tw.id_ ::
          (_update_deck tw (tw.update_fields tm n2).nid
            { c2 with notes := c2.notes.map (fun n =>
                if n.nid = (tw.update_fields tm n2).nid then tw.update_fields tm n2
                else n) } dd).2, by simp [hn2], ?_⟩
        intro i m hmem
        rcases List.mem_cons.mp hmem with he | hmem2
        · exact Event.noConfusion he
        · obtain ⟨c, d2, he⟩ := update_deck_events_are_moves _ _ _ _ _ hmem2
          exact Event.noConfusion he

/-- Witness for C4 at a concrete type-changed note. -/
theorem migration_precedes_field_compare_witness :
    twACloze.model_equal ankiA = false ∧
    editOne tmFix twACloze ankiA col1 "Default" = Except.ok
      ({ notes := [{ nid := 10, model := "TiddlyRemember Cloze v1",
                     fields := [("ID", "1001"), ("Text", "2+2 is 4")] }],
         cards := [{ cid := 100, nid := 10, ord := 0, did := 1, queue := 0,
                     ctype := 0, ivl := 0, factor := 0, lapses := 0, due := 0 }],
         decks := [("Default", 1), ("Math", 2)],
         nextNid := 11, nextCid := 102, nextDid := 3, today := 20000 },
       1,
       [Event.migrated "1001",
        Event.fieldCompared "1001" "TiddlyRemember Cloze v1",
        Event.fieldWrite "1001", Event.cardMove 100 1]) ∧
    ∃ rest, [Event.migrated "1001",
        Event.fieldCompared "1001" "TiddlyRemember Cloze v1",
        Event.fieldWrite "1001", Event.cardMove 100 1] =
      Event.migrated twACloze.id_ ::
        Event.fieldCompared twACloze.id_ twACloze.model :: rest ∧
      ∀ i m, Event.fieldCompared i m ∉ rest :=
  ⟨by decide, by rfl,
   migration_precedes_field_compare tmFix twACloze ankiA col1 "Default" _ _ _
     (by decide) (by rfl)⟩

/-
C6.
-/

/-- State relation: every card of the second collection either descends from
a card of the first with the same card id and identical scheduling state
(queue and type flags, interval, ease factor, lapse count, due date), or is
a freshly created card carrying default scheduling, as type migration
creates for templates newly introduced by the new type (spec 4.7). -/
def schedPreserved (colA colB : Col) : Prop :=
  ∀ c2 ∈ colB.cards,
    (∃ c1 ∈ colA.cards, c2.cid = c1.cid ∧ c2.queue = c1.queue ∧
      c2.ctype = c1.ctype ∧ c2.ivl = c1.ivl ∧ c2.factor = c1.factor ∧
      c2.lapses = c1.lapses ∧ c2.due = c1.due) ∨
    (c2.queue = 0 ∧ c2.ctype = 0 ∧ c2.ivl = 0 ∧ c2.factor = 0 ∧
      c2.lapses = 0 ∧ c2.due = 0)

theorem schedPreserved_refl (col : Col) : schedPreserved col col := by
  intro c hc
  exact Or.inl ⟨c, hc, rfl, rfl, rfl, rfl, rfl, rfl, rfl⟩

theorem schedPreserved_of_cards_eq {colA colB : Col}
    (h : colB.cards = colA.cards) : schedPreserved colA colB := by
  intro c hc
  rw [h] at hc
  exact Or.inl ⟨c, hc, rfl, rfl, rfl, rfl, rfl, rfl, rfl⟩

theorem schedPreserved_trans {colA colB colC : Col}
    (h1 : schedPreserved colA colB) (h2 : schedPreserved colB colC) :
    schedPreserved colA colC := by
  intro c3 hc3
  rcases h2 c3 hc3 with ⟨c2, hc2, e1, e2, e3, e4, e5, e6, e7⟩ | hfr
  · rcases h1 c2 hc2 with ⟨c1, hc1, f1, f2, f3, f4, f5, f6, f7⟩ | hfr2
    · exact Or.inl ⟨c1, hc1, e1.trans f1, e2.trans f2, e3.trans f3,
        e4.trans f4, e5.trans f5, e6.trans f6, e7.trans f7⟩
    · exact Or.inr ⟨e2.trans hfr2.1, e3.trans hfr2.2.1, e4.trans hfr2.2.2.1,
        e5.trans hfr2.2.2.2.1, e6.trans hfr2.2.2.2.2.1, e7.trans hfr2.2.2.2.2.2⟩
  · exact Or.inr hfr

theorem schedPreserved_update_deck (tw : TwNote) (nid : Nat) (col : Col)
    (dd : String) : schedPreserved col (_update_deck tw nid col dd).1 := by
  intro c2 hc2
  simp only [_update_deck, decks_id_cards, List.mem_map] at hc2
  obtain ⟨a, ha, rfl⟩ := hc2
  by_cases hcond : a.nid = nid ∧ a.did ≠ (col.decks_id (deckNameFor tw dd)).2
  · exact Or.inl ⟨a, ha, by simp [hcond]⟩
  · exact Or.inl ⟨a, ha, by simp [if_neg hcond]⟩

theorem schedPreserved_models_change (col : Col) (tm : TrModels) (nid : Nat)
    (name : String) (fmap cmap : List (Option Nat)) :
    schedPreserved col (col.models_change tm nid name fmap cmap) := by
  intro c2 hc2
  simp only [Col.models_change, List.mem_append] at hc2
  rcases hc2 with hc2 | hc2
  · simp only [List.mem_filterMap] at hc2
    obtain ⟨a, ha, hfa⟩ := hc2
    left
    by_cases hx : a.nid = nid
    · rw [if_pos hx] at hfa
      cases ho : cmap.getD a.ord none with
      | none => rw [ho] at hfa; exact absurd hfa (by simp)
      | some o =>
          rw [ho] at hfa
          simp only [Option.some.injEq] at hfa
          exact ⟨a, ha, by rw [← hfa]; exact ⟨rfl, rfl, rfl, rfl, rfl, rfl, rfl⟩⟩
    · rw [if_neg hx] at hfa
      simp only [Option.some.injEq] at hfa
      exact ⟨a, ha, by rw [← hfa]; exact ⟨rfl, rfl, rfl, rfl, rfl, rfl, rfl⟩⟩
  · right
    simp only [List.mem_map] at hc2
    obtain ⟨o, -, rfl⟩ := hc2
    exact ⟨rfl, rfl, rfl, rfl, rfl, rfl⟩

theorem schedPreserved_change_note_type {tm : TrModels} {col : Col}
    {tw : TwNote} {an : AnkiNote} {c2 : Col} {n2 : AnkiNote}
    (h : _change_note_type tm col tw an = Except.ok (c2, n2)) :
    schedPreserved col c2 := by
  unfold _change_note_type at h
  cases hb : tm.by_name an.model with
  | none => rw [hb] at h; exact absurd h (by simp)
  | some old =>
      rw [hb] at h
      simp only at h
      cases hf : (col.models_change tm an.nid tw.model (tm.fmapFn old.name tw.model)
          (tm.cmapFn old.name tw.model)).notes.find?
          (fun n => decide (n.nid = an.nid)) with
      | none => rw [hf] at h; exact absurd h (by simp)
      | some n =>
          rw [hf] at h
          simp only [Except.ok.injEq, Prod.mk.injEq] at h
          obtain ⟨rfl, -⟩ := h
          exact schedPreserved_models_change _ _ _ _ _ _

theorem schedPreserved_editOne {tm : TrModels} {tw : TwNote} {an : AnkiNote}
    {col : Col} {dd : String} {col1 : Col} {d : Nat} {ev : List Event}
    (h : editOne tm tw an col dd = Except.ok (col1, d, ev)) :
    schedPreserved col col1 := by
  unfold editOne at h
  by_cases hme : tw.model_equal an
  · rw [if_pos hme] at h
    simp only at h
    by_cases hfe : tw.fields_equal tm an
    · rw [if_pos hfe] at h
      simp only [Except.ok.injEq, Prod.mk.injEq] at h
      obtain ⟨rfl, -⟩ := h
      exact schedPreserved_update_deck _ _ _ _
    · rw [if_neg hfe] at h
      simp only [Except.ok.injEq, Prod.mk.injEq] at h
      obtain ⟨rfl, -⟩ := h
      have hmid : schedPreserved col { col with notes := col.notes.map (fun n =>
          if n.nid = (tw.update_fields tm an).nid then tw.update_fields tm an
          else n) } := schedPreserved_of_cards_eq rfl
      exact schedPreserved_trans hmid (schedPreserved_update_deck _ _ _ _)
  · rw [if_neg hme] at h
    cases hcn : _change_note_type tm col tw an with
    | error e => rw [hcn] at h; exact absurd h (by simp)
    | ok p =>
        obtain ⟨c2, n2⟩ := p
        rw [hcn] at h
        simp only at h
        have base : schedPreserved col c2 := schedPreserved_change_note_type hcn
        by_cases hfe : tw.fields_equal tm n2
        · rw [if_pos hfe] at h
          simp only [Except.ok.injEq, Prod.mk.injEq] at h
          obtain ⟨rfl, -⟩ := h
          exact schedPreserved_trans base (schedPreserved_update_deck _ _ _ _)
        · rw [if_neg hfe] at h
          simp only [Except.ok.injEq, Prod.mk.injEq] at h
          obtain ⟨rfl, -⟩ := h
          refine schedPreserved_trans base ?_
          have hmid : schedPreserved c2 { c2 with notes := c2.notes.map (fun n =>
              if n.nid = (tw.update_fields tm n2).nid then tw.update_fields tm n2
              else n) } := schedPreserved_of_cards_eq rfl
          exact schedPreserved_trans hmid (schedPreserved_update_deck _ _ _ _)

theorem editOne_no_seed {tm : TrModels} {tw : TwNote} {an : AnkiNote}
    {col : Col} {dd : String} {col1 : Col} {d : Nat} {ev : List Event}
    (h : editOne tm tw an col dd = Except.ok (col1, d, ev)) :
    ∀ e ∈ ev, ∀ i, e ≠ Event.seeded i := by
  unfold editOne at h
  by_cases hme : tw.model_equal an
  all_goals
    first
      | (rw [if_pos hme] at h)
      | (rw [if_neg hme] at h)
  case pos =>
    simp only at h
    by_cases hfe : tw.fields_equal tm an
    · rw [if_pos hfe] at h
      simp only [Except.ok.injEq, Prod.mk.injEq] at h
      obtain ⟨-, -, rfl⟩ := h
      intro e he i
      simp only [List.nil_append, List.mem_append, List.mem_singleton] at he
      rcases he with rfl | he
      · exact Event.noConfusion
      · obtain ⟨c, d2, rfl⟩ := update_deck_events_are_moves _ _ _ _ _ he
        exact Event.noConfusion
    · rw [if_neg hfe] at h
      simp only [Except.ok.injEq, Prod.mk.injEq] at h
      obtain ⟨-, -, rfl⟩ := h
      intro e he i
      simp only [List.nil_append, List.append_assoc, List.mem_append,
        List.mem_singleton] at he
      rcases he with rfl | rfl | he
      · exact Event.noConfusion
      · exact Event.noConfusion
      · obtain ⟨c, d2, rfl⟩ := update_deck_events_are_moves _ _ _ _ _ he
        exact Event.noConfusion
  case neg =>
    cases hcn : _change_note_type tm col tw an with
    | error e => rw [hcn] at h; exact absurd h (by simp)
    | ok p =>
        obtain ⟨c2, n2⟩ := p
        rw [hcn] at h
        simp only at h
        by_cases hfe : tw.fields_equal tm n2
        · rw [if_pos hfe] at h
          simp only [Except.ok.injEq, Prod.mk.injEq] at h
          obtain ⟨-, -, rfl⟩ := h
          intro e he i
          simp only [List.cons_append, List.nil_append, List.mem_cons,
            List.mem_append, List.mem_singleton] at he
          rcases he with rfl | rfl | he
          · exact Event.noConfusion
          · exact Event.noConfusion
          · obtain ⟨c, d2, rfl⟩ := update_deck_events_are_moves _ _ _ _ _ he
            exact Event.noConfusion
        · rw [if_neg hfe] at h
          simp only [Except.ok.injEq, Prod.mk.injEq] at h
          obtain ⟨-, -, rfl⟩ := h
          intro e he i
          simp only [List.cons_append, List.nil_append, List.append_assoc,
            List.mem_cons, List.mem_append, List.mem_singleton] at he
          rcases he with rfl | rfl | rfl | he
          · exact Event.noConfusion
          · exact Event.noConfusion
          · exact Event.noConfusion
          · obtain ⟨c, d2, rfl⟩ := update_deck_events_are_moves _ _ _ _ _ he
            exact Event.noConfusion

/-- C6: scheduling seeding happens only in the add path (the add step emits
at most the single seed event for the note just persisted), and the edit
loop, over every id it processes, emits no seed event and never writes
scheduling state: every card it leaves behind either descends from a
pre-existing card with the same card id and identical queue, type flag,
interval, ease factor, lapse count and due date (only deck placement and
template ordinal may change), or is a card freshly created with default
scheduling by type migration for a template newly introduced by the new
type (spec 4.7). -/
theorem edit_path_never_touches_scheduling (tm : TrModels)
    (lkTw : Twid → Option TwNote) (lkAnki : Twid → Option AnkiNote)
    (dd : String) (ids : List Twid) (col : Col) (cnt : Nat) (evs : List Event)
    (col' : Col) (cnt' : Nat) (evs' : List Event) (r : Option String)
    (h : runEdits tm lkTw lkAnki dd ids col cnt evs = (col', cnt', evs', r)) :
    (∀ (tw : TwNote) (colA : Col) (ddA : String),
       (addOne tm tw colA ddA).2 = [] ∨
       (addOne tm tw colA ddA).2 = [Event.seeded tw.id_]) ∧
    (∀ e ∈ evs', e ∉ evs → ∀ i, e ≠ Event.seeded i) ∧
    schedPreserved col col' := by
  refine ⟨?_, ?_⟩
  · intro tw colA ddA
    show (_set_initial_scheduling tw colA.nextNid _).2 = [] ∨
      (_set_initial_scheduling tw colA.nextNid _).2 = [Event.seeded tw.id_]
    cases hs : tw.schedule with
    | none => left; simp [_set_initial_scheduling, hs]
    | some sched => right; simp [_set_initial_scheduling, hs]
  induction ids generalizing col cnt evs with
  | nil =>
      simp only [runEdits, Prod.mk.injEq] at h
      obtain ⟨rfl, rfl, rfl, rfl⟩ := h
      exact ⟨fun e he hne i => absurd he hne, schedPreserved_refl _⟩
  | cons id rest ih =>
      simp only [runEdits] at h
      cases h1 : lkTw id with
      | none =>
          rw [h1] at h
          simp only [Prod.mk.injEq] at h
          obtain ⟨rfl, rfl, rfl, rfl⟩ := h
          exact ⟨fun e he hne i => absurd he hne, schedPreserved_refl _⟩
      | some tw =>
          rw [h1] at h
          cases h2 : lkAnki id with
          | none =>
              rw [h2] at h
              simp only [Prod.mk.injEq] at h
              obtain ⟨rfl, rfl, rfl, rfl⟩ := h
              exact ⟨fun e he hne i => absurd he hne, schedPreserved_refl _⟩
          | some an =>
              rw [h2] at h
              simp only at h
              cases h3 : editOne tm tw an col dd with
              | error e =>
                  rw [h3] at h
                  simp only [Prod.mk.injEq] at h
                  obtain ⟨rfl, rfl, rfl, rfl⟩ := h
                  exact ⟨fun e2 he hne i => absurd he hne, schedPreserved_refl _⟩
              | ok p =>
                  obtain ⟨colm, dm, evm⟩ := p
                  rw [h3] at h
                  simp only at h
                  obtain ⟨hev, hsp⟩ := ih _ _ _ h
                  refine ⟨?_, schedPreserved_trans (schedPreserved_editOne h3) hsp⟩
                  intro e he hne i
                  by_cases hmem : e ∈ evs ++ evm
                  · rcases List.mem_append.mp hmem with hm1 | hm2
                    · exact absurd hm1 hne
                    · exact editOne_no_seed h3 e hm2 i
                  · exact hev e he hmem i

/-- Witness for C6 at a concrete one-id edit run that migrates, rewrites
fields and moves a card, yet leaves the card scheduling state intact. -/
theorem edit_path_never_touches_scheduling_witness :
    runEdits tmFix (fun _ => some twACloze) (fun _ => some ankiA) "Default"
        ["1001"] col1 0 [] =
      ({ notes := [{ nid := 10, model := "TiddlyRemember Cloze v1",
                     fields := [("ID", "1001"), ("Text", "2+2 is 4")] }],
         cards := [{ cid := 100, nid := 10, ord := 0, did := 1, queue := 0,
                     ctype := 0, ivl := 0, factor := 0, lapses := 0, due := 0 }],
         decks := [("Default", 1), ("Math", 2)],
         nextNid := 11, nextCid := 102, nextDid := 3, today := 20000 },
       1,
       [Event.migrated "1001",
        Event.fieldCompared "1001" "TiddlyRemember Cloze v1",
        Event.fieldWrite "1001", Event.cardMove 100 1], none) ∧
    ((∀ (tw : TwNote) (colA : Col) (ddA : String),
        (addOne tmFix tw colA ddA).2 = [] ∨
        (addOne tmFix tw colA ddA).2 = [Event.seeded tw.id_]) ∧
     (∀ e ∈ [Event.migrated "1001",
        Event.fieldCompared "1001" "TiddlyRemember Cloze v1",
        Event.fieldWrite "1001", Event.cardMove 100 1],
        e ∉ ([] : List Event) → ∀ i, e ≠ Event.seeded i) ∧
     schedPreserved col1
       { notes := [{ nid := 10, model := "TiddlyRemember Cloze v1",
                     fields := [("ID", "1001"), ("Text", "2+2 is 4")] }],
         cards := [{ cid := 100, nid := 10, ord := 0, did := 1, queue := 0,
                     ctype := 0, ivl := 0, factor := 0, lapses := 0, due := 0 }],
         decks := [("Default", 1), ("Math", 2)],
         nextNid := 11, nextCid := 102, nextDid := 3, today := 20000 }) :=
  ⟨by rfl,
   edit_path_never_touches_scheduling tmFix (fun _ => some twACloze)
     (fun _ => some ankiA) "Default" ["1001"] col1 0 [] _ _ _ _ (by rfl)⟩

/-
C9.
-/

theorem countFieldWrites_append (a b : List Event) :
    countFieldWrites (a ++ b) = countFieldWrites a + countFieldWrites b := by
  simp [countFieldWrites, List.filter_append]

theorem addOne_countFW (tm : TrModels) (tw : TwNote) (col : Col) (dd : String) :
    countFieldWrites (addOne tm tw col dd).2 = 0 := by
  show countFieldWrites (_set_initial_scheduling tw col.nextNid _).2 = 0
  cases hs : tw.schedule <;> simp [_set_initial_scheduling, hs, countFieldWrites]

theorem runAdds_countFW (tm : TrModels) (lk : Twid → Option TwNote)
    (dd : String) :
    ∀ (ids : List Twid) (col : Col) (evs : List Event),
      countFieldWrites (runAdds tm lk dd ids col evs).2 = countFieldWrites evs := by
  intro ids
  induction ids with
  | nil => intro col evs; simp [runAdds]
  | cons id rest ih =>
      intro col evs
      simp only [runAdds]
      cases h1 : lk id with
      | none => exact ih col evs
      | some tw =>
          rw [ih]
          rw [countFieldWrites_append, addOne_countFW]
          omega

theorem update_deck_countFW (tw : TwNote) (nid : Nat) (col : Col) (dd : String) :
    countFieldWrites (_update_deck tw nid col dd).2 = 0 := by
  have h := update_deck_events_are_moves tw nid col dd
  simp only [countFieldWrites, List.length_eq_zero]
  rw [List.filter_eq_nil_iff]
  intro e he
  obtain ⟨c, d2, rfl⟩ := h e he
  simp

theorem editOne_countFW {tm : TrModels} {tw : TwNote} {an : AnkiNote}
    {col : Col} {dd : String} {col1 : Col} {d : Nat} {ev : List Event}
    (h : editOne tm tw an col dd = Except.ok (col1, d, ev)) :
    countFieldWrites ev = d := by
  unfold editOne at h
  by_cases hme : tw.model_equal an
  · rw [if_pos hme] at h
    simp only at h
    by_cases hfe : tw.fields_equal tm an
    · rw [if_pos hfe] at h
      simp only [Except.ok.injEq, Prod.mk.injEq] at h
      obtain ⟨-, rfl, rfl⟩ := h
      rw [countFieldWrites_append, update_deck_countFW]
      simp [countFieldWrites]
    · rw [if_neg hfe] at h
      simp only [Except.ok.injEq, Prod.mk.injEq] at h
      obtain ⟨-, rfl, rfl⟩ := h
      rw [countFieldWrites_append, countFieldWrites_append, update_deck_countFW]
      simp [countFieldWrites]
  · rw [if_neg hme] at h
    cases hcn : _change_note_type tm col tw an with
    | error e => rw [hcn] at h; exact absurd h (by simp)
    | ok p =>
        obtain ⟨c2, n2⟩ := p
        rw [hcn] at h
        simp only at h
        by_cases hfe : tw.fields_equal tm n2
        · rw [if_pos hfe] at h
          simp only [Except.ok.injEq, Prod.mk.injEq] at h
          obtain ⟨-, rfl, rfl⟩ := h
          rw [countFieldWrites_append, update_deck_countFW]
          simp [countFieldWrites]
        · rw [if_neg hfe] at h
          simp only [Except.ok.injEq, Prod.mk.injEq] at h
          obtain ⟨-, rfl, rfl⟩ := h
          rw [countFieldWrites_append, countFieldWrites_append, update_deck_countFW]
          simp [countFieldWrites]

theorem runEdits_countFW (tm : TrModels) (lkTw : Twid → Option TwNote)
    (lkAnki : Twid → Option AnkiNote) (dd : String) :
    ∀ (ids : List Twid) (col : Col) (cnt : Nat) (evs : List Event)
      (col' : Col) (cnt' : Nat) (evs' : List Event),
      runEdits tm lkTw lkAnki dd ids col cnt evs = (col', cnt', evs', none) →
      countFieldWrites evs' + cnt = countFieldWrites evs + cnt' := by
  intro ids
  induction ids with
  | nil =>
      intro col cnt evs col' cnt' evs' h
      simp only [runEdits, Prod.mk.injEq] at h
      obtain ⟨-, rfl, rfl, -⟩ := h
      rfl
  | cons id rest ih =>
      intro col cnt evs col' cnt' evs' h
      simp only [runEdits] at h
      cases h1 : lkTw id with
      | none => rw [h1] at h; simp at h
      | some tw =>
          rw [h1] at h
          cases h2 : lkAnki id with
          | none => rw [h2] at h; simp at h
          | some an =>
              rw [h2] at h
              simp only at h
              cases h3 : editOne tm tw an col dd with
              | error e => rw [h3] at h; simp at h
              | ok p =>
                  obtain ⟨colm, dm, evm⟩ := p
                  rw [h3] at h
                  simp only at h
                  have hr := ih _ _ _ _ _ _ h
                  rw [countFieldWrites_append, editOne_countFW h3] at hr
                  omega

theorem sync_outcome_char (tm : TrModels) (tws : List TwNote) (col : Col)
    (dd : String) :
    (∃ e, (sync tm tws col dd).outcome = SyncOutcome.fatal e) ∨
    (sync tm tws col dd).outcome = SyncOutcome.ok
      (("Added " ++ toString (addsOf tm tws col).length ++ " " ++
        pluralize "note" (addsOf tm tws col).length ++ ".") ++ "\n" ++
       ("Updated " ++ toString (countFieldWrites (sync tm tws col dd).events) ++
        " " ++ pluralize "note"
          (countFieldWrites (sync tm tws col dd).events) ++ ".") ++ "\n" ++
       ("Removed " ++ toString (removesOf tm tws col).length ++ " " ++
        pluralize "note" (removesOf tm tws col).length ++ ".")) := by
  rcases hA : runAdds tm (lookupTw tws) dd (addsOf tm tws col) col [] with
    ⟨colAdd, evAdd⟩
  rcases hE : runEdits tm (lookupTw tws) (lookupAnki tm col) dd
    (editsOf tm tws col) colAdd 0 evAdd with ⟨col2, cnt2, ev2, err⟩
  cases err with
  | some e =>
      left
      refine ⟨e, ?_⟩
      simp only [sync]
      rw [hA]
      dsimp only
      rw [hE]
  | none =>
      right
      have hA0 : countFieldWrites evAdd = 0 := by
        have := runAdds_countFW tm (lookupTw tws) dd (addsOf tm tws col) col []
        rw [hA] at this
        simpa [countFieldWrites] using this
      have hcnt : countFieldWrites ev2 = cnt2 := by
        have := runEdits_countFW tm (lookupTw tws) (lookupAnki tm col) dd
          (editsOf tm tws col) colAdd 0 evAdd col2 cnt2 ev2 hE
        omega
      have hev : (sync tm tws col dd).events = ev2 := by
        simp only [sync]
        rw [hA]
        dsimp only
        rw [hE]
      rw [hev, hcnt]
      simp only [sync]
      rw [hA]
      dsimp only
      rw [hE]

/-- C9: a completed run returns a three-line summary reporting, in order, the
number of notes added, the number of notes updated (exactly the notes whose
fields were actually rewritten, as counted by the field-write events in the
trace), and the number of notes removed, with singular wording exactly for a
count of one. -/
theorem summary_reports_counts (tm : TrModels) (tws : List TwNote) (col : Col)
    (dd : String) (l : String)
    (h : (sync tm tws col dd).outcome = SyncOutcome.ok l) :
    l = ("Added " ++ toString (addsOf tm tws col).length ++ " " ++
         pluralize "note" (addsOf tm tws col).length ++ ".") ++ "\n" ++
        ("Updated " ++ toString (countFieldWrites (sync tm tws col dd).events) ++
         " " ++ pluralize "note"
           (countFieldWrites (sync tm tws col dd).events) ++ ".") ++ "\n" ++
        ("Removed " ++ toString (removesOf tm tws col).length ++ " " ++
         pluralize "note" (removesOf tm tws col).length ++ ".") ∧
    (∀ w : String, pluralize w 1 = w) ∧
    (∀ (w : String) (n : Nat), n ≠ 1 → pluralize w n = w ++ "s") := by
  refine ⟨?_, fun w => by simp [pluralize], fun w n hn => by simp [pluralize, hn]⟩
  rcases sync_outcome_char tm tws col dd with ⟨e, hf⟩ | hok
  · rw [h] at hf; exact absurd hf (by simp)
  · rw [h] at hok
    simp only [SyncOutcome.ok.injEq] at hok
    exact hok

/-- Witness for C9 at a concrete completed run adding one note. -/
theorem summary_reports_counts_witness :
    (sync tmFix [twA] col0 "Default").outcome = SyncOutcome.ok
      "Added 1 note.\nUpdated 0 notes.\nRemoved 0 notes." ∧
    ("Added 1 note.\nUpdated 0 notes.\nRemoved 0 notes." : String) =
      ("Added " ++ toString (addsOf tmFix [twA] col0).length ++ " " ++
       pluralize "note" (addsOf tmFix [twA] col0).length ++ ".") ++ "\n" ++
      ("Updated " ++
       toString (countFieldWrites (sync tmFix [twA] col0 "Default").events) ++
       " " ++ pluralize "note"
         (countFieldWrites (sync tmFix [twA] col0 "Default").events) ++ ".") ++
      "\n" ++
      ("Removed " ++ toString (removesOf tmFix [twA] col0).length ++ " " ++
       pluralize "note" (removesOf tmFix [twA] col0).length ++ ".") ∧
    (∀ w : String, pluralize w 1 = w) ∧
    (∀ (w : String) (n : Nat), n ≠ 1 → pluralize w n = w ++ "s") :=
  ⟨by rfl,
   (summary_reports_counts tmFix [twA] col0 "Default"
     "Added 1 note.\nUpdated 0 notes.\nRemoved 0 notes." (by rfl)).1,
   (summary_reports_counts tmFix [twA] col0 "Default"
     "Added 1 note.\nUpdated 0 notes.\nRemoved 0 notes." (by rfl)).2.1,
   (summary_reports_counts tmFix [twA] col0 "Default"
     "Added 1 note.\nUpdated 0 notes.\nRemoved 0 notes." (by rfl)).2.2⟩

/-
Infrastructure for the coverage and idempotence claims.
-/

/-- The identity-relevant projection of a persisted note: its numeric id, its
TiddlyWiki id, and whether its type is recognized. -/
def projNote (tm : TrModels) (n : AnkiNote) : Nat × Twid × Bool :=
  (n.nid, twidOf tm n, (tm.by_name n.model).isSome)

theorem by_name_mem {tm : TrModels} {s : String} {m : ModelDef}
    (h : tm.by_name s = some m) : m ∈ tm.models :=
  List.mem_of_find?_eq_some h

theorem by_name_name {tm : TrModels} {s : String} {m : ModelDef}
    (h : tm.by_name s = some m) : m.name = s := by
  have := List.find?_some h
  simpa using this

theorem lookupKey_map_self {β : Type} (k : String) (l : List String)
    (f : String → β) (hk : k ∈ l) :
    lookupKey k (l.map (fun fn => (fn, f fn))) = some (f k) := by
  induction l with
  | nil => cases hk
  | cons a rest ih =>
      by_cases ha : a = k
      · subst ha
        simp [lookupKey]
      · rcases List.mem_cons.mp hk with rfl | hk2
        · exact absurd rfl ha
        · simp only [List.map_cons, lookupKey, if_neg ha]
          exact ih hk2

theorem lookupKey_renderFields {tm : TrModels} {tw : TwNote} {m : ModelDef}
    (hm : tm.by_name tw.model = some m) (hid : tm.idField ∈ m.fieldNames) :
    lookupKey tm.idField (renderFields tm tw) = some tw.id_ := by
  unfold renderFields
  rw [hm]
  rw [lookupKey_map_self tm.idField m.fieldNames _ hid]
  simp

theorem twidOf_renderFields {tm : TrModels} {tw : TwNote} {m : ModelDef}
    {nid : Nat} {s : String}
    (hm : tm.by_name tw.model = some m) (hid : tm.idField ∈ m.fieldNames) :
    twidOf tm { nid := nid, model := s, fields := renderFields tm tw } = tw.id_ := by
  unfold twidOf
  simp only
  rw [lookupKey_renderFields hm hid]
  rfl

theorem twidOf_fields_renderFields {tm : TrModels} {tw : TwNote} {m : ModelDef}
    {n : AnkiNote} (hm : tm.by_name tw.model = some m)
    (hid : tm.idField ∈ m.fieldNames) (hf : n.fields = renderFields tm tw) :
    twidOf tm n = tw.id_ := by
  unfold twidOf
  rw [hf, lookupKey_renderFields hm hid]
  rfl

theorem lookupTw_mem {tws : List TwNote} {i : Twid}
    (h : i ∈ tws.map TwNote.id_) :
    ∃ tw, lookupTw tws i = some tw ∧ tw.id_ = i ∧ tw ∈ tws := by
  obtain ⟨n, hn, rfl⟩ := List.mem_map.mp h
  have hex : ∃ a ∈ tws.reverse, (fun x => decide (x.id_ = n.id_)) a = true :=
    ⟨n, List.mem_reverse.mpr hn, by simp⟩
  rcases hf : tws.reverse.find? (fun x => decide (x.id_ = n.id_)) with _ | tw
  · rw [List.find?_eq_none] at hf
    obtain ⟨a, ha, hp⟩ := hex
    exact absurd hp (by simpa using hf a ha)
  · refine ⟨tw, hf, ?_, ?_⟩
    · have := List.find?_some hf
      simpa using this
    · exact List.mem_reverse.mp (List.mem_of_find?_eq_some hf)

theorem lookupAnki_some_props {tm : TrModels} {col : Col} {i : Twid}
    {an : AnkiNote} (h : lookupAnki tm col i = some an) :
    twidOf tm an = i ∧ an ∈ col.find_notes_model tm := by
  constructor
  · have := List.find?_some h
    simpa using this
  · exact List.mem_reverse.mp (List.mem_of_find?_eq_some h)

theorem lookupAnki_mem {tm : TrModels} {col : Col} {i : Twid}
    (h : i ∈ ankiTwids tm col) :
    ∃ an, lookupAnki tm col i = some an ∧ twidOf tm an = i ∧
      an ∈ col.find_notes_model tm := by
  rw [ankiTwids, List.mem_dedup] at h
  obtain ⟨n, hn, rfl⟩ := List.mem_map.mp h
  cases hf : lookupAnki tm col (twidOf tm n) with
  | none =>
      exfalso
      unfold lookupAnki at hf
      rw [List.find?_eq_none] at hf
      simpa using hf n (List.mem_reverse.mpr hn)
  | some an =>
      obtain ⟨h1, h2⟩ := lookupAnki_some_props hf
      exact ⟨an, rfl, h1, h2⟩

theorem find_notes_model_mem {tm : TrModels} {col : Col} {n : AnkiNote} :
    n ∈ col.find_notes_model tm ↔
      n ∈ col.notes ∧ (tm.by_name n.model).isSome := by
  simp [Col.find_notes_model, List.mem_filter]

theorem recognizedTwids_proj (tm : TrModels) (c : Col) :
    recognizedTwids tm c =
      ((c.notes.map (projNote tm)).filter (fun p => p.2.2)).map
        (fun p => p.2.1) := by
  unfold recognizedTwids Col.find_notes_model
  rw [List.filter_map, List.map_map]
  rfl

theorem addOne_notes (tm : TrModels) (tw : TwNote) (col : Col) (dd : String) :
    (addOne tm tw col dd).1.notes =
      col.notes ++ [{ nid := col.nextNid, model := tw.model,
                      fields := renderFields tm tw }] := by
  show (_set_initial_scheduling tw col.nextNid _).1.notes = _
  rw [set_initial_scheduling_notes]
  simp

theorem addOne_nextNid (tm : TrModels) (tw : TwNote) (col : Col) (dd : String) :
    (addOne tm tw col dd).1.nextNid = col.nextNid + 1 := by
  show (_set_initial_scheduling tw col.nextNid _).1.nextNid = _
  rw [set_initial_scheduling_nextNid]

theorem runAdds_char (tm : TrModels) (lk : Twid → Option TwNote) (dd : String) :
    ∀ (ids : List Twid) (col : Col) (evs : List Event),
      (∀ i ∈ ids, ∃ tw, lk i = some tw ∧ tw.id_ = i ∧
          ∃ m, tm.by_name tw.model = some m ∧ tm.idField ∈ m.fieldNames) →
      ∃ L, (runAdds tm lk dd ids col evs).1.notes = col.notes ++ L ∧
        L.map (twidOf tm) = ids ∧
        (∀ n ∈ L, (tm.by_name n.model).isSome) ∧
        L.map AnkiNote.nid = List.range' col.nextNid ids.length ∧
        (runAdds tm lk dd ids col evs).1.nextNid = col.nextNid + ids.length := by
  intro ids
  induction ids with
  | nil =>
      intro col evs hids
      exact ⟨[], by simp [runAdds], rfl, by simp, by simp [List.range'], by simp [runAdds]⟩
  | cons i rest ih =>
      intro col evs hids
      obtain ⟨tw, hlk, hid, m, hm, hidf⟩ := hids i (List.mem_cons_self i rest)
      simp only [runAdds]
      rw [hlk]
      have hrest : ∀ j ∈ rest, ∃ tw2, lk j = some tw2 ∧ tw2.id_ = j ∧
          ∃ m2, tm.by_name tw2.model = some m2 ∧ tm.idField ∈ m2.fieldNames :=
        fun j hj => hids j (List.mem_cons_of_mem i hj)
      obtain ⟨L, hnotes, htwids, hrec, hnids, hnext⟩ :=
        ih (addOne tm tw col dd).1 (evs ++ (addOne tm tw col dd).2) hrest
      refine ⟨{ nid := col.nextNid, model := tw.model,
                fields := renderFields tm tw } :: L, ?_, ?_, ?_, ?_, ?_⟩
      · rw [hnotes, addOne_notes]
        simp
      · simp only [List.map_cons, htwids]
        rw [twidOf_renderFields hm hidf, hid]
      · intro n hn
        rcases List.mem_cons.mp hn with rfl | hn2
        · simp [hm]
        · exact hrec n hn2
      · simp only [List.map_cons, hnids, addOne_nextNid, List.length_cons]
        rfl
      · rw [hnext, addOne_nextNid]
        simp only [List.length_cons]
        omega

@[simp] theorem update_deck_notes (tw : TwNote) (nid : Nat) (col : Col)
    (dd : String) : (_update_deck tw nid col dd).1.notes = col.notes := by
  simp [_update_deck]

@[simp] theorem update_deck_nextNid (tw : TwNote) (nid : Nat) (col : Col)
    (dd : String) : (_update_deck tw nid col dd).1.nextNid = col.nextNid := by
  simp [_update_deck]

@[simp] theorem update_deck_today (tw : TwNote) (nid : Nat) (col : Col)
    (dd : String) : (_update_deck tw nid col dd).1.today = col.today := by
  simp [_update_deck]

theorem eq_of_nid_nodup {l : List AnkiNote}
    (hnd : (l.map AnkiNote.nid).Nodup) {a b : AnkiNote}
    (ha : a ∈ l) (hb : b ∈ l) (h : a.nid = b.nid) : a = b :=
  List.inj_on_of_nodup_map hnd ha hb h

theorem map_eq_self_of {α : Type} {l : List α} {f : α → α}
    (h : ∀ a ∈ l, f a = a) : l.map f = l := by
  induction l with
  | nil => rfl
  | cons b rest ih =>
      simp only [List.map_cons]
      rw [h b (List.mem_cons_self b rest),
        ih (fun a ha => h a (List.mem_cons_of_mem b ha))]

theorem change_note_type_char {tm : TrModels} {col : Col} {tw : TwNote}
    {an : AnkiNote} {c2 : Col} {n2 : AnkiNote}
    (h : _change_note_type tm col tw an = Except.ok (c2, n2))
    (han : an ∈ col.notes)
    (hnd : (col.notes.map AnkiNote.nid).Nodup) :
    c2.notes = col.notes.map (fun n => if n.nid = an.nid then n2 else n) ∧
    n2.nid = an.nid ∧ n2.model = tw.model ∧
    c2.decks = col.decks ∧ c2.nextNid = col.nextNid ∧ c2.today = col.today := by
  have hmodel := change_note_type_model h
  unfold _change_note_type at h
  cases hb : tm.by_name an.model with
  | none => rw [hb] at h; exact absurd h (by simp)
  | some old =>
      rw [hb] at h
      simp only at h
      cases hf : (col.models_change tm an.nid tw.model (tm.fmapFn old.name tw.model)
          (tm.cmapFn old.name tw.model)).notes.find?
          (fun n => decide (n.nid = an.nid)) with
      | none => rw [hf] at h; exact absurd h (by simp)
      | some nr =>
          rw [hf] at h
          simp only [Except.ok.injEq, Prod.mk.injEq] at h
          obtain ⟨rfl, rfl⟩ := h
          have hpred : nr.nid = an.nid := by
            have := List.find?_some hf
            simpa using this
          have hmem := List.mem_of_find?_eq_some hf
          simp only [Col.models_change, List.mem_map] at hmem
          obtain ⟨x, hx, hTx⟩ := hmem
          refine ⟨?_, hpred, hmodel, by simp [Col.models_change],
            by simp [Col.models_change], by simp [Col.models_change]⟩
          show col.notes.map _ = _
          apply List.map_congr_left
          intro n hn
          by_cases hx2 : n.nid = an.nid
          · simp only [if_pos hx2]
            have hnan : n = an := eq_of_nid_nodup hnd hn han hx2
            subst hnan
            by_cases hxx : x.nid = n.nid
            · have hxan : x = n := eq_of_nid_nodup hnd hx hn hxx
              subst hxan
              simp only [if_pos hxx] at hTx
              exact hTx
            · rw [if_neg hxx] at hTx
              rw [← hTx] at hpred
              exact absurd hpred hxx
          · simp only [if_neg hx2]

theorem editOne_notes_shape {tm : TrModels} {tw : TwNote} {an : AnkiNote}
    {col : Col} {dd : String} {col1 : Col} {d : Nat} {ev : List Event}
    (h : editOne tm tw an col dd = Except.ok (col1, d, ev))
    (han : an ∈ col.notes)
    (hnd : (col.notes.map AnkiNote.nid).Nodup) :
    ∃ repl : AnkiNote,
      col1.notes = col.notes.map (fun n => if n.nid = an.nid then repl else n) ∧
      repl.nid = an.nid ∧ repl.model = tw.model ∧
      repl.fields = renderFields tm tw ∧
      col1.nextNid = col.nextNid := by
  unfold editOne at h
  by_cases hme : tw.model_equal an
  · rw [if_pos hme] at h
    simp only at h
    have hmodel : an.model = tw.model := by
      simpa [TwNote.model_equal] using hme
    by_cases hfe : tw.fields_equal tm an
    · rw [if_pos hfe] at h
      simp only [Except.ok.injEq, Prod.mk.injEq] at h
      obtain ⟨rfl, -⟩ := h
      have hfields : an.fields = renderFields tm tw := by
        simpa [TwNote.fields_equal] using hfe
      refine ⟨an, ?_, rfl, hmodel, hfields, by simp⟩
      rw [update_deck_notes]
      symm
      apply map_eq_self_of
      intro n hn
      by_cases hx : n.nid = an.nid
      · rw [if_pos hx]
        exact (eq_of_nid_nodup hnd hn han hx).symm
      · rw [if_neg hx]
    · rw [if_neg hfe] at h
      simp only [Except.ok.injEq, Prod.mk.injEq] at h
      obtain ⟨rfl, -⟩ := h
      refine ⟨tw.update_fields tm an, ?_, rfl, hmodel, rfl, by simp⟩
      rw [update_deck_notes]
      rfl
  · rw [if_neg hme] at h
    cases hcn : _change_note_type tm col tw an with
    | error e => rw [hcn] at h; exact absurd h (by simp)
    | ok p =>
        obtain ⟨c2, n2⟩ := p
        rw [hcn] at h
        simp only at h
        obtain ⟨hc2notes, hn2nid, hn2model, -, hc2next, -⟩ :=
          change_note_type_char hcn han hnd
        by_cases hfe : tw.fields_equal tm n2
        · rw [if_pos hfe] at h
          simp only [Except.ok.injEq, Prod.mk.injEq] at h
          obtain ⟨rfl, -⟩ := h
          have hfields : n2.fields = renderFields tm tw := by
            simpa [TwNote.fields_equal] using hfe
          exact ⟨n2, by rw [update_deck_notes, hc2notes], hn2nid, hn2model,
            hfields, by simp [hc2next]⟩
        · rw [if_neg hfe] at h
          simp only [Except.ok.injEq, Prod.mk.injEq] at h
          obtain ⟨rfl, -⟩ := h
          refine ⟨tw.update_fields tm n2, ?_, hn2nid, hn2model, rfl, by simp [hc2next]⟩
          rw [update_deck_notes]
          show List.map _ c2.notes = _
          rw [hc2notes, List.map_map]
          apply List.map_congr_left
          intro n hn
          by_cases hx : n.nid = an.nid
          · simp only [Function.comp_apply, if_pos hx]
            rw [if_pos]
            show n2.nid = (tw.update_fields tm n2).nid
            rfl
          · simp only [Function.comp_apply, if_neg hx]
            rw [if_neg]
            show ¬ n.nid = (tw.update_fields tm n2).nid
            show ¬ n.nid = n2.nid
            rw [hn2nid]
            exact hx

theorem editOne_nids {tm : TrModels} {tw : TwNote} {an : AnkiNote}
    {col : Col} {dd : String} {col1 : Col} {d : Nat} {ev : List Event}
    (h : editOne tm tw an col dd = Except.ok (col1, d, ev))
    (han : an ∈ col.notes)
    (hnd : (col.notes.map AnkiNote.nid).Nodup) :
    col1.notes.map AnkiNote.nid = col.notes.map AnkiNote.nid := by
  obtain ⟨repl, hshape, hnid, -, -, -⟩ := editOne_notes_shape h han hnd
  rw [hshape, List.map_map]
  apply List.map_congr_left
  intro n hn
  by_cases hx : n.nid = an.nid
  · simp only [Function.comp_apply, if_pos hx]
    rw [hnid, hx]
  · simp only [Function.comp_apply, if_neg hx]

theorem editOne_proj {tm : TrModels} {tw : TwNote} {an : AnkiNote}
    {col : Col} {dd : String} {col1 : Col} {d : Nat} {ev : List Event}
    (h : editOne tm tw an col dd = Except.ok (col1, d, ev))
    (han : an ∈ col.notes)
    (hnd : (col.notes.map AnkiNote.nid).Nodup)
    (htw : twidOf tm an = tw.id_)
    (hm : ∃ m, tm.by_name tw.model = some m ∧ tm.idField ∈ m.fieldNames)
    (hrec : (tm.by_name an.model).isSome) :
    col1.notes.map (projNote tm) = col.notes.map (projNote tm) := by
  obtain ⟨repl, hshape, hnid, hmodel, hfields, -⟩ := editOne_notes_shape h han hnd
  obtain ⟨m, hm1, hm2⟩ := hm
  rw [hshape, List.map_map]
  apply List.map_congr_left
  intro n hn
  by_cases hx : n.nid = an.nid
  · have hnan : n = an := eq_of_nid_nodup hnd hn han hx
    subst hnan
    have ht : twidOf tm repl = tw.id_ := twidOf_fields_renderFields hm1 hm2 hfields
    simp [projNote, hnid, ht, htw, hmodel, hm1, hrec]
  · simp only [Function.comp_apply, if_neg hx]

theorem runEdits_proj (tm : TrModels) (lkTw : Twid → Option TwNote)
    (lkAnki : Twid → Option AnkiNote) (dd : String) :
    ∀ (ids : List Twid) (col : Col) (cnt : Nat) (evs : List Event)
      (col' : Col) (cnt' : Nat) (evs' : List Event),
      runEdits tm lkTw lkAnki dd ids col cnt evs = (col', cnt', evs', none) →
      ids.Nodup →
      (col.notes.map AnkiNote.nid).Nodup →
      (∀ i ∈ ids, ∃ tw an, lkTw i = some tw ∧ lkAnki i = some an ∧
          tw.id_ = i ∧ twidOf tm an = i ∧ an ∈ col.notes ∧
          (tm.by_name an.model).isSome ∧
          ∃ m, tm.by_name tw.model = some m ∧ tm.idField ∈ m.fieldNames) →
      col'.notes.map (projNote tm) = col.notes.map (projNote tm) ∧
      col'.notes.map AnkiNote.nid = col.notes.map AnkiNote.nid ∧
      col'.nextNid = col.nextNid := by
  intro ids
  induction ids with
  | nil =>
      intro col cnt evs col' cnt' evs' h hidnd hnd hids
      simp only [runEdits, Prod.mk.injEq] at h
      obtain ⟨rfl, -, -, -⟩ := h
      exact ⟨rfl, rfl, rfl⟩
  | cons i rest ih =>
      intro col cnt evs col' cnt' evs' h hidnd hnd hids
      obtain ⟨tw, an, h1, h2, hid, htwid, hmem, hrec, hm⟩ :=
        hids i (List.mem_cons_self i rest)
      simp only [runEdits] at h
      rw [h1, h2] at h
      simp only at h
      cases h3 : editOne tm tw an col dd with
      | error e => rw [h3] at h; simp at h
      | ok p =>
          obtain ⟨colm, dm, evm⟩ := p
          rw [h3] at h
          simp only at h
          have htwan : twidOf tm an = tw.id_ := by rw [htwid, hid]
          have hnids : colm.notes.map AnkiNote.nid = col.notes.map AnkiNote.nid :=
            editOne_nids h3 hmem hnd
          have hndm : (colm.notes.map AnkiNote.nid).Nodup := by rw [hnids]; exact hnd
          obtain ⟨repl, hshape, hreplnid, -, -, hnext⟩ :=
            editOne_notes_shape h3 hmem hnd
          have hrest : ∀ j ∈ rest, ∃ tw2 an2, lkTw j = some tw2 ∧
              lkAnki j = some an2 ∧ tw2.id_ = j ∧ twidOf tm an2 = j ∧
              an2 ∈ colm.notes ∧ (tm.by_name an2.model).isSome ∧
              ∃ m2, tm.by_name tw2.model = some m2 ∧ tm.idField ∈ m2.fieldNames := by
            intro j hj
            obtain ⟨tw2, an2, g1, g2, g3, g4, g5, g6, g7⟩ :=
              hids j (List.mem_cons_of_mem i hj)
            refine ⟨tw2, an2, g1, g2, g3, g4, ?_, g6, g7⟩
            have hji : j ≠ i := by
              intro he
              rw [he] at hj
              exact (List.nodup_cons.mp hidnd).1 hj
            have hne : an2.nid ≠ an.nid := by
              intro he
              have : an2 = an := eq_of_nid_nodup hnd g5 hmem he
              rw [this, htwid] at g4
              exact hji g4.symm
            rw [hshape]
            refine List.mem_map.mpr ⟨an2, g5, ?_⟩
            rw [if_neg hne]
          obtain ⟨p1, p2, p3⟩ := ih colm (cnt + dm) (evs ++ evm) col' cnt' evs' h
            (List.nodup_cons.mp hidnd).2 hndm hrest
          refine ⟨?_, ?_, ?_⟩
          · rw [p1]
            exact editOne_proj h3 hmem hnd htwan hm hrec
          · rw [p2, hnids]
          · rw [p3, hnext]

theorem sync_ok_split (tm : TrModels) (tws : List TwNote) (col : Col)
    (dd : String) (l : String)
    (h : (sync tm tws col dd).outcome = SyncOutcome.ok l) :
    ∃ col2 cnt ev2,
      runEdits tm (lookupTw tws) (lookupAnki tm col) dd (editsOf tm tws col)
        (runAdds tm (lookupTw tws) dd (addsOf tm tws col) col []).1 0
        (runAdds tm (lookupTw tws) dd (addsOf tm tws col) col []).2 =
        (col2, cnt, ev2, none) ∧
      (sync tm tws col dd).col = col2.remove_notes
        ((removesOf tm tws col).filterMap
          (fun i => (lookupAnki tm col i).map AnkiNote.nid)) := by
  rcases hA : runAdds tm (lookupTw tws) dd (addsOf tm tws col) col [] with
    ⟨colAdd, evAdd⟩
  rcases hE : runEdits tm (lookupTw tws) (lookupAnki tm col) dd
    (editsOf tm tws col) colAdd 0 evAdd with ⟨col2, cnt2, ev2, err⟩
  cases err with
  | some e =>
      exfalso
      have hfatal : (sync tm tws col dd).outcome = SyncOutcome.fatal e := by
        simp only [sync]
        rw [hA]
        dsimp only
        rw [hE]
      rw [h] at hfatal
      exact absurd hfatal (by simp)
  | none =>
      refine ⟨col2, cnt2, ev2, ?_, ?_⟩
      · rfl
      · simp only [sync]
        rw [hA]
        dsimp only
        rw [hE]

theorem mem_recognizedTwids {tm : TrModels} {c : Col} {x : Twid} :
    x ∈ recognizedTwids tm c ↔
      ∃ n ∈ c.notes, (tm.by_name n.model).isSome ∧ twidOf tm n = x := by
  simp [recognizedTwids, Col.find_notes_model, List.mem_filter, List.mem_map,
    and_assoc]

theorem mem_remove_notes {c : Col} {nids : List Nat} {n : AnkiNote} :
    n ∈ (c.remove_notes nids).notes ↔ n ∈ c.notes ∧ n.nid ∉ nids := by
  simp [Col.remove_notes, List.mem_filter]

theorem coverage_aux (tm : TrModels) (tws : List TwNote) (col : Col)
    (dd : String) (l : String)
    (hok : (sync tm tws col dd).outcome = SyncOutcome.ok l)
    (H1 : ∀ tw ∈ tws, (tm.by_name tw.model).isSome)
    (H2 : ∀ m ∈ tm.models, tm.idField ∈ m.fieldNames)
    (H3 : (col.notes.map AnkiNote.nid).Nodup)
    (H4 : ∀ n ∈ col.notes, n.nid < col.nextNid)
    (H5 : (recognizedTwids tm col).Nodup) :
    (recognizedTwids tm (sync tm tws col dd).col).toFinset =
      (tws.map TwNote.id_).toFinset := by
  obtain ⟨col2, cnt2, ev2, hE, hcol⟩ := sync_ok_split tm tws col dd l hok
  have Hsrc : ∀ tw ∈ tws, ∃ m, tm.by_name tw.model = some m ∧
      tm.idField ∈ m.fieldNames := by
    intro tw htw
    cases hbn : tm.by_name tw.model with
    | none => exact absurd (H1 tw htw) (by simp [hbn])
    | some m => exact ⟨m, rfl, H2 m (by_name_mem hbn)⟩
  have hAddsHyp : ∀ i ∈ addsOf tm tws col, ∃ tw, lookupTw tws i = some tw ∧
      tw.id_ = i ∧ ∃ m, tm.by_name tw.model = some m ∧
        tm.idField ∈ m.fieldNames := by
    intro i hi
    simp only [addsOf, idDiffAdds, List.mem_filter] at hi
    have himem : i ∈ tws.map TwNote.id_ := by
      have := hi.1
      simpa [extractedTwids, List.mem_dedup] using this
    obtain ⟨tw, g1, g2, g3⟩ := lookupTw_mem himem
    exact ⟨tw, g1, g2, Hsrc tw g3⟩
  obtain ⟨L, hLnotes, hLtwids, hLrec, hLnids, hLnext⟩ :=
    runAdds_char tm (lookupTw tws) dd (addsOf tm tws col) col [] hAddsHyp
  have hndAdd : ((runAdds tm (lookupTw tws) dd (addsOf tm tws col) col
      []).1.notes.map AnkiNote.nid).Nodup := by
    rw [hLnotes, List.map_append, hLnids, List.nodup_append]
    refine ⟨H3, List.nodup_range' _ _, ?_⟩
    intro a ha hb
    obtain ⟨n, hn, rfl⟩ := List.mem_map.mp ha
    have h1 := H4 n hn
    have h2 := (List.mem_range'_1.mp hb).1
    omega
  have hEditsHyp : ∀ i ∈ editsOf tm tws col, ∃ tw an,
      lookupTw tws i = some tw ∧ lookupAnki tm col i = some an ∧
      tw.id_ = i ∧ twidOf tm an = i ∧
      an ∈ (runAdds tm (lookupTw tws) dd (addsOf tm tws col) col []).1.notes ∧
      (tm.by_name an.model).isSome ∧
      ∃ m, tm.by_name tw.model = some m ∧ tm.idField ∈ m.fieldNames := by
    intro i hi
    simp only [editsOf, idDiffEdits, List.mem_filter, decide_eq_true_eq] at hi
    obtain ⟨hiext, hianki⟩ := hi
    have himem : i ∈ tws.map TwNote.id_ := by
      simpa [extractedTwids, List.mem_dedup] using hiext
    obtain ⟨tw, g1, g2, g3⟩ := lookupTw_mem himem
    obtain ⟨an, f1, f2, f3⟩ := lookupAnki_mem hianki
    have f4 := find_notes_model_mem.mp f3
    refine ⟨tw, an, g1, f1, g2, f2, ?_, f4.2, Hsrc tw g3⟩
    rw [hLnotes]
    exact List.mem_append_left _ f4.1
  have hedNodup : (editsOf tm tws col).Nodup :=
    List.Nodup.filter _ (List.nodup_dedup _)
  obtain ⟨hproj, hnids2, -⟩ := runEdits_proj tm (lookupTw tws)
    (lookupAnki tm col) dd (editsOf tm tws col)
    (runAdds tm (lookupTw tws) dd (addsOf tm tws col) col []).1 0
    (runAdds tm (lookupTw tws) dd (addsOf tm tws col) col []).2
    col2 cnt2 ev2 hE hedNodup hndAdd hEditsHyp
  have htrans : ∀ P : Nat × Twid × Bool → Prop,
      (∃ n ∈ col2.notes, P (projNote tm n)) ↔
      (∃ n ∈ (runAdds tm (lookupTw tws) dd (addsOf tm tws col) col []).1.notes,
        P (projNote tm n)) := by
    intro P
    constructor
    · rintro ⟨n, hn, hP⟩
      have hmm : projNote tm n ∈ col2.notes.map (projNote tm) :=
        List.mem_map_of_mem _ hn
      rw [hproj] at hmm
      obtain ⟨n2, hn2, he⟩ := List.mem_map.mp hmm
      exact ⟨n2, hn2, by rw [he]; exact hP⟩
    · rintro ⟨n, hn, hP⟩
      have hmm : projNote tm n ∈ ((runAdds tm (lookupTw tws) dd
          (addsOf tm tws col) col []).1.notes.map (projNote tm)) :=
        List.mem_map_of_mem _ hn
      rw [← hproj] at hmm
      obtain ⟨n2, hn2, he⟩ := List.mem_map.mp hmm
      exact ⟨n2, hn2, by rw [he]; exact hP⟩
  have hremlt : ∀ v ∈ (removesOf tm tws col).filterMap
      (fun i => (lookupAnki tm col i).map AnkiNote.nid), v < col.nextNid := by
    intro v hv
    simp only [List.mem_filterMap] at hv
    obtain ⟨i, hi, hvi⟩ := hv
    cases hla : lookupAnki tm col i with
    | none => rw [hla] at hvi; simp at hvi
    | some an =>
        rw [hla] at hvi
        simp only [Option.map_some', Option.some.injEq] at hvi
        subst hvi
        have := (lookupAnki_some_props hla).2
        exact H4 an (find_notes_model_mem.mp this).1
  have hrecinj : ∀ a ∈ col.find_notes_model tm, ∀ b ∈ col.find_notes_model tm,
      twidOf tm a = twidOf tm b → a = b := by
    intro a ha b hb he
    exact List.inj_on_of_nodup_map H5 ha hb he
  rw [hcol]
  ext x
  simp only [List.mem_toFinset]
  rw [mem_recognizedTwids]
  constructor
  · rintro ⟨n, hn, hnrec, hntwid⟩
    rw [mem_remove_notes] at hn
    obtain ⟨hn2, hnrem⟩ := hn
    have hP : ∃ nn ∈ col2.notes, (fun p : Nat × Twid × Bool =>
        p.1 ∉ (removesOf tm tws col).filterMap
          (fun i => (lookupAnki tm col i).map AnkiNote.nid) ∧
        p.2.2 = true ∧ p.2.1 = x) (projNote tm nn) :=
      ⟨n, hn2, hnrem, hnrec, hntwid⟩
    obtain ⟨n2, hn2m, hq⟩ := (htrans (fun p : Nat × Twid × Bool =>
        p.1 ∉ (removesOf tm tws col).filterMap
          (fun i => (lookupAnki tm col i).map AnkiNote.nid) ∧
        p.2.2 = true ∧ p.2.1 = x)).mp hP
    have hq1 : n2.nid ∉ (removesOf tm tws col).filterMap
        (fun i => (lookupAnki tm col i).map AnkiNote.nid) := hq.1
    have hq2 : (tm.by_name n2.model).isSome = true := hq.2.1
    have hq3 : twidOf tm n2 = x := hq.2.2
    rw [hLnotes] at hn2m
    rcases List.mem_append.mp hn2m with hcase | hcase
    · by_cases hx2 : x ∈ extractedTwids tws
      · simpa [extractedTwids, List.mem_dedup] using hx2
      · exfalso
        have hxanki : x ∈ ankiTwids tm col := by
          rw [ankiTwids, List.mem_dedup]
          refine List.mem_map.mpr ⟨n2, ?_, hq3⟩
          exact find_notes_model_mem.mpr ⟨hcase, hq2⟩
        have hxrem : x ∈ removesOf tm tws col := by
          simp only [removesOf, idDiffRemoves, List.mem_filter,
            decide_eq_true_eq]
          exact ⟨hxanki, hx2⟩
        obtain ⟨anx, hla, hlt, hlf⟩ := lookupAnki_mem hxanki
        have hn2eq : n2 = anx := by
          apply hrecinj n2 (find_notes_model_mem.mpr ⟨hcase, hq2⟩) anx hlf
          rw [hq3, hlt]
        apply hq1
        simp only [List.mem_filterMap]
        exact ⟨x, hxrem, by rw [hla, hn2eq]; rfl⟩
    · have hmw : twidOf tm n2 ∈ L.map (twidOf tm) := List.mem_map_of_mem _ hcase
      rw [hLtwids, hq3] at hmw
      simp only [addsOf, idDiffAdds, List.mem_filter] at hmw
      have := hmw.1
      simpa [extractedTwids, List.mem_dedup] using this
  · intro hx
    have hxext : x ∈ extractedTwids tws := by
      simpa [extractedTwids, List.mem_dedup] using hx
    by_cases hx2 : x ∈ ankiTwids tm col
    · obtain ⟨an, hla, hlt, hlf⟩ := lookupAnki_mem hx2
      have hanrem : an.nid ∉ (removesOf tm tws col).filterMap
          (fun i => (lookupAnki tm col i).map AnkiNote.nid) := by
        intro hmem
        simp only [List.mem_filterMap] at hmem
        obtain ⟨i, hi, hvi⟩ := hmem
        cases hla2 : lookupAnki tm col i with
        | none => rw [hla2] at hvi; simp at hvi
        | some an2 =>
            rw [hla2] at hvi
            simp only [Option.map_some', Option.some.injEq] at hvi
            have h2props := lookupAnki_some_props hla2
            have heq : an2 = an := by
              apply eq_of_nid_nodup H3
                (find_notes_model_mem.mp h2props.2).1
                (find_notes_model_mem.mp hlf).1 hvi
            have hix : i = x := by rw [← h2props.1, heq, hlt]
            subst hix
            simp only [removesOf, idDiffRemoves, List.mem_filter,
              decide_eq_true_eq] at hi
            exact hi.2 hxext
      have hP : ∃ nn ∈ (runAdds tm (lookupTw tws) dd (addsOf tm tws col) col
          []).1.notes, (fun p : Nat × Twid × Bool =>
            p.1 ∉ (removesOf tm tws col).filterMap
              (fun i => (lookupAnki tm col i).map AnkiNote.nid) ∧
            p.2.2 = true ∧ p.2.1 = x) (projNote tm nn) := by
        refine ⟨an, ?_, hanrem, (find_notes_model_mem.mp hlf).2, hlt⟩
        rw [hLnotes]
        exact List.mem_append_left _ (find_notes_model_mem.mp hlf).1
      obtain ⟨n, hn, hq⟩ := (htrans (fun p : Nat × Twid × Bool =>
          p.1 ∉ (removesOf tm tws col).filterMap
            (fun i => (lookupAnki tm col i).map AnkiNote.nid) ∧
          p.2.2 = true ∧ p.2.1 = x)).mpr hP
      have hq1 : n.nid ∉ (removesOf tm tws col).filterMap
          (fun i => (lookupAnki tm col i).map AnkiNote.nid) := hq.1
      have hq2 : (tm.by_name n.model).isSome = true := hq.2.1
      have hq3 : twidOf tm n = x := hq.2.2
      refine ⟨n, ?_, hq2, hq3⟩
      rw [mem_remove_notes]
      exact ⟨hn, hq1⟩
    · have hxadds : x ∈ addsOf tm tws col := by
        simp only [addsOf, idDiffAdds, List.mem_filter]
        exact ⟨hxext, by simpa using hx2⟩
      have hmw : x ∈ L.map (twidOf tm) := by rw [hLtwids]; exact hxadds
      obtain ⟨nL, hnL, hnLt⟩ := List.mem_map.mp hmw
      have hnLnid : col.nextNid ≤ nL.nid := by
        have hmm : nL.nid ∈ L.map AnkiNote.nid := List.mem_map_of_mem _ hnL
        rw [hLnids] at hmm
        exact (List.mem_range'_1.mp hmm).1
      have hnLrem : nL.nid ∉ (removesOf tm tws col).filterMap
          (fun i => (lookupAnki tm col i).map AnkiNote.nid) := by
        intro hmem
        have := hremlt _ hmem
        omega
      have hP : ∃ nn ∈ (runAdds tm (lookupTw tws) dd (addsOf tm tws col) col
          []).1.notes, (fun p : Nat × Twid × Bool =>
            p.1 ∉ (removesOf tm tws col).filterMap
              (fun i => (lookupAnki tm col i).map AnkiNote.nid) ∧
            p.2.2 = true ∧ p.2.1 = x) (projNote tm nn) := by
        refine ⟨nL, ?_, hnLrem, hLrec nL hnL, hnLt⟩
        rw [hLnotes]
        exact List.mem_append_right _ hnL
      obtain ⟨n, hn, hq⟩ := (htrans (fun p : Nat × Twid × Bool =>
          p.1 ∉ (removesOf tm tws col).filterMap
            (fun i => (lookupAnki tm col i).map AnkiNote.nid) ∧
          p.2.2 = true ∧ p.2.1 = x)).mpr hP
      have hq1 : n.nid ∉ (removesOf tm tws col).filterMap
          (fun i => (lookupAnki tm col i).map AnkiNote.nid) := hq.1
      have hq2 : (tm.by_name n.model).isSome = true := hq.2.1
      have hq3 : twidOf tm n = x := hq.2.2
      refine ⟨n, ?_, hq2, hq3⟩
      rw [mem_remove_notes]
      exact ⟨hn, hq1⟩

/-- C1: after a completed run over a source set whose note types are
registered schemas with the reserved id field, against a store whose note
ids are unique, whose recognized-type note ids are unique and whose id
counter is fresh, the set of ids of recognized-type notes in the store is
exactly the set of source note ids. -/
theorem sync_coverage (tm : TrModels) (tws : List TwNote) (col : Col)
    (dd : String) (l : String)
    (hok : (sync tm tws col dd).outcome = SyncOutcome.ok l)
    (H1 : ∀ tw ∈ tws, (tm.by_name tw.model).isSome)
    (H2 : ∀ m ∈ tm.models, tm.idField ∈ m.fieldNames)
    (H3 : (col.notes.map AnkiNote.nid).Nodup)
    (H4 : ∀ n ∈ col.notes, n.nid < col.nextNid)
    (H5 : (recognizedTwids tm col).Nodup) :
    (recognizedTwids tm (sync tm tws col dd).col).toFinset =
      (tws.map TwNote.id_).toFinset :=
  coverage_aux tm tws col dd l hok H1 H2 H3 H4 H5

/-- Witness for C1 at a concrete run that adds one note and keeps one. -/
theorem sync_coverage_witness :
    (sync tmFix [twA, twB] col1 "Default").outcome = SyncOutcome.ok
      "Added 1 note.\nUpdated 0 notes.\nRemoved 0 notes." ∧
    (∀ tw ∈ [twA, twB], (tmFix.by_name tw.model).isSome) ∧
    (recognizedTwids tmFix (sync tmFix [twA, twB] col1 "Default").col).toFinset =
      ([twA, twB].map TwNote.id_).toFinset :=
  ⟨by rfl, by decide,
   sync_coverage tmFix [twA, twB] col1 "Default" _ (by rfl) (by decide)
     (by decide) (by decide) (by decide) (by decide)⟩

/-
Frame infrastructure for the idempotence claim: state pieces relevant to one
note (the note value itself, the deck registry entries, and the cards of one
note id) survive the processing of unrelated notes.
-/

/-- State relation: the notes of id ν, the resolved deck entries and the
cards of note id ν carry over unchanged from the first state to the second. -/
def Preserves (ν : Nat) (colA colB : Col) : Prop :=
  (∀ n ∈ colA.notes, n.nid = ν → n ∈ colB.notes) ∧
  (∀ name dv, lookupKey name colA.decks = some dv →
    lookupKey name colB.decks = some dv) ∧
  colB.cards.filter (fun c => decide (c.nid = ν)) =
    colA.cards.filter (fun c => decide (c.nid = ν))

theorem Preserves.refl (ν : Nat) (c : Col) : Preserves ν c c :=
  ⟨fun _ hn _ => hn, fun _ _ h => h, rfl⟩

theorem Preserves.trans {ν : Nat} {cA cB cC : Col}
    (h1 : Preserves ν cA cB) (h2 : Preserves ν cB cC) : Preserves ν cA cC :=
  ⟨fun n hn he => h2.1 n (h1.1 n hn he) he,
   fun name dv h => h2.2.1 name dv (h1.2.1 name dv h),
   h2.2.2.trans h1.2.2⟩

theorem filter_map_frame {l : List Card} {f : Card → Card} {p : Card → Bool}
    (h1 : ∀ c, p c = true → f c = c) (h2 : ∀ c, p (f c) = p c) :
    (l.map f).filter p = l.filter p := by
  induction l with
  | nil => rfl
  | cons c rest ih =>
      simp only [List.map_cons, List.filter_cons]
      rw [h2 c]
      cases hp : p c with
      | true => rw [h1 c hp, ih]
      | false => exact ih

theorem filter_filterMap_frame {l : List Card} {g : Card → Option Card}
    {p : Card → Bool}
    (h1 : ∀ c, p c = true → g c = some c)
    (h2 : ∀ c c2, g c = some c2 → p c2 = p c) :
    (l.filterMap g).filter p = l.filter p := by
  induction l with
  | nil => rfl
  | cons c rest ih =>
      rw [List.filterMap_cons]
      cases hg : g c with
      | none =>
          have hp : p c = false := by
            cases hp : p c with
            | true => rw [h1 c hp] at hg; exact absurd hg (by simp)
            | false => rfl
          rw [List.filter_cons, hp]
          exact ih
      | some c2 =>
          rw [List.filter_cons, List.filter_cons, h2 c c2 hg]
          cases hp : p c with
          | true =>
              have := h1 c hp
              rw [this] at hg
              simp only [Option.some.injEq] at hg
              rw [← hg, ih]
          | false => exact ih

theorem decks_id_preserves (col : Col) (name : String) (ν : Nat) :
    Preserves ν col (col.decks_id name).1 := by
  refine ⟨?_, ?_, ?_⟩
  · intro n hn _
    rw [decks_id_notes]
    exact hn
  · intro nm dv h
    exact decks_id_lookup_mono col name nm h
  · rw [decks_id_cards]

theorem set_initial_scheduling_preserves (tw : TwNote) (nid : Nat) (col : Col)
    (ν : Nat) (hne : ν ≠ nid) :
    Preserves ν col (_set_initial_scheduling tw nid col).1 := by
  refine ⟨?_, ?_, ?_⟩
  · intro n hn _
    rw [set_initial_scheduling_notes]
    exact hn
  · intro nm dv h
    rw [set_initial_scheduling_decks]
    exact h
  · cases hs : tw.schedule with
    | none => simp [_set_initial_scheduling, hs]
    | some sched =>
        simp only [_set_initial_scheduling, hs]
        apply filter_map_frame
        · intro c hc
          simp only [decide_eq_true_eq] at hc
          rw [if_neg]
          rw [hc]
          exact hne
        · intro c
          by_cases hcn : c.nid = nid
          · simp [hcn]
          · simp [hcn]

theorem update_deck_preserves (tw : TwNote) (nid : Nat) (col : Col)
    (dd : String) (ν : Nat) (hne : ν ≠ nid) :
    Preserves ν col (_update_deck tw nid col dd).1 := by
  refine Preserves.trans (decks_id_preserves col (deckNameFor tw dd) ν) ?_
  refine ⟨?_, ?_, ?_⟩
  · intro n hn _
    simp only [_update_deck]
    exact hn
  · intro nm dv h
    simp only [_update_deck]
    exact h
  · simp only [_update_deck]
    apply filter_map_frame
    · intro c hc
      simp only [decide_eq_true_eq] at hc
      rw [if_neg]
      intro hco
      exact hne (hc ▸ hco.1)
    · intro c
      by_cases hco : c.nid = nid ∧ c.did ≠ (col.decks_id (deckNameFor tw dd)).2
      · simp [hco]
      · simp [if_neg hco]

theorem addOne_preserves (tm : TrModels) (tw : TwNote) (col : Col)
    (dd : String) (ν : Nat) (hne : ν ≠ col.nextNid) :
    Preserves ν col (addOne tm tw col dd).1 := by
  refine Preserves.trans (decks_id_preserves col (deckNameFor tw dd) ν) ?_
  have hmid : Preserves ν (col.decks_id (deckNameFor tw dd)).1
      { (col.decks_id (deckNameFor tw dd)).1 with
        notes := (col.decks_id (deckNameFor tw dd)).1.notes ++
          [{ nid := col.nextNid, model := tw.model,
             fields := renderFields tm tw }],
        cards := (col.decks_id (deckNameFor tw dd)).1.cards ++
          (List.range (match tm.by_name tw.model with
            | some m => m.templateCount
            | none => 0)).map (fun o =>
            { cid := (col.decks_id (deckNameFor tw dd)).1.nextCid + o,
              nid := col.nextNid, ord := o,
              did := (col.decks_id (deckNameFor tw dd)).2,
              queue := 0, ctype := 0, ivl := 0, factor := 0, lapses := 0,
              due := 0 : Card }),
        nextNid := col.nextNid + 1,
        nextCid := (col.decks_id (deckNameFor tw dd)).1.nextCid +
          (match tm.by_name tw.model with
            | some m => m.templateCount
            | none => 0) } := by
    refine ⟨?_, ?_, ?_⟩
    · intro n hn _
      exact List.mem_append_left _ hn
    · intro nm dv h
      exact h
    · rw [List.filter_append]
      have hnew : ((List.range (match tm.by_name tw.model with
          | some m => m.templateCount
          | none => 0)).map (fun o =>
            { cid := (col.decks_id (deckNameFor tw dd)).1.nextCid + o,
              nid := col.nextNid, ord := o,
              did := (col.decks_id (deckNameFor tw dd)).2,
              queue := 0, ctype := 0, ivl := 0, factor := 0, lapses := 0,
              due := 0 : Card })).filter (fun c => decide (c.nid = ν)) = [] := by
        rw [List.filter_eq_nil_iff]
        intro c hc
        obtain ⟨o, -, rfl⟩ := List.mem_map.mp hc
        simp only [decide_eq_true_eq]
        exact fun he => hne he.symm
      rw [hnew, List.append_nil]
  exact Preserves.trans hmid
    (set_initial_scheduling_preserves tw col.nextNid _ ν hne)

theorem runAdds_nextNid_mono (tm : TrModels) (lk : Twid → Option TwNote)
    (dd : String) : ∀ (ids : List Twid) (col : Col) (evs : List Event),
    col.nextNid ≤ (runAdds tm lk dd ids col evs).1.nextNid := by
  intro ids
  induction ids with
  | nil => intro col evs; simp [runAdds]
  | cons i rest ih =>
      intro col evs
      simp only [runAdds]
      cases h1 : lk i with
      | none => exact ih col evs
      | some tw =>
          dsimp only
          have := ih (addOne tm tw col dd).1 (evs ++ (addOne tm tw col dd).2)
          rw [addOne_nextNid] at this
          omega

theorem runAdds_preserves (tm : TrModels) (lk : Twid → Option TwNote)
    (dd : String) : ∀ (ids : List Twid) (col : Col) (evs : List Event)
    (ν : Nat), ν < col.nextNid →
    Preserves ν col (runAdds tm lk dd ids col evs).1 := by
  intro ids
  induction ids with
  | nil => intro col evs ν _; exact Preserves.refl ν col
  | cons i rest ih =>
      intro col evs ν hν
      simp only [runAdds]
      cases h1 : lk i with
      | none => exact ih col evs ν hν
      | some tw =>
          refine Preserves.trans (addOne_preserves tm tw col dd ν (by omega)) ?_
          apply ih
          rw [addOne_nextNid]
          omega

theorem editOne_preserves {tm : TrModels} {tw : TwNote} {an : AnkiNote}
    {col : Col} {dd : String} {col1 : Col} {d : Nat} {ev : List Event}
    (h : editOne tm tw an col dd = Except.ok (col1, d, ev))
    (han : an ∈ col.notes)
    (hnd : (col.notes.map AnkiNote.nid).Nodup)
    (ν : Nat) (hne : ν ≠ an.nid) :
    Preserves ν col col1 := by
  obtain ⟨repl, hshape, hreplnid, -, -, -⟩ := editOne_notes_shape h han hnd
  refine ⟨?_, ?_, ?_⟩
  · intro n hn hnn
    rw [hshape]
    refine List.mem_map.mpr ⟨n, hn, ?_⟩
    rw [if_neg]
    rw [hnn]
    exact hne
  · intro nm dv hdv
    unfold editOne at h
    by_cases hme : tw.model_equal an
    · rw [if_pos hme] at h
      simp only at h
      by_cases hfe : tw.fields_equal tm an
      · rw [if_pos hfe] at h
        simp only [Except.ok.injEq, Prod.mk.injEq] at h
        obtain ⟨rfl, -⟩ := h
        exact (update_deck_preserves tw an.nid col dd ν hne).2.1 nm dv hdv
      · rw [if_neg hfe] at h
        simp only [Except.ok.injEq, Prod.mk.injEq] at h
        obtain ⟨rfl, -⟩ := h
        exact (update_deck_preserves _ _ _ dd ν hne).2.1 nm dv hdv
    · rw [if_neg hme] at h
      cases hcn : _change_note_type tm col tw an with
      | error e => rw [hcn] at h; exact absurd h (by simp)
      | ok p =>
          obtain ⟨c2, n2⟩ := p
          rw [hcn] at h
          simp only at h
          obtain ⟨-, -, -, hdecks, -, -⟩ := change_note_type_char hcn han hnd
          rw [← hdecks] at hdv
          by_cases hfe : tw.fields_equal tm n2
          · rw [if_pos hfe] at h
            simp only [Except.ok.injEq, Prod.mk.injEq] at h
            obtain ⟨rfl, -⟩ := h
            exact (update_deck_preserves _ _ _ dd ν hne).2.1 nm dv hdv
          · rw [if_neg hfe] at h
            simp only [Except.ok.injEq, Prod.mk.injEq] at h
            obtain ⟨rfl, -⟩ := h
            exact (update_deck_preserves _ _ _ dd ν hne).2.1 nm dv hdv
  · unfold editOne at h
    by_cases hme : tw.model_equal an
    · rw [if_pos hme] at h
      simp only at h
      by_cases hfe : tw.fields_equal tm an
      · rw [if_pos hfe] at h
        simp only [Except.ok.injEq, Prod.mk.injEq] at h
        obtain ⟨rfl, -⟩ := h
        exact (update_deck_preserves tw an.nid col dd ν hne).2.2
      · rw [if_neg hfe] at h
        simp only [Except.ok.injEq, Prod.mk.injEq] at h
        obtain ⟨rfl, -⟩ := h
        exact (update_deck_preserves _ _ _ dd ν hne).2.2
    · rw [if_neg hme] at h
      cases hcn : _change_note_type tm col tw an with
      | error e => rw [hcn] at h; exact absurd h (by simp)
      | ok p =>
          obtain ⟨c2, n2⟩ := p
          rw [hcn] at h
          simp only at h
          have hc2cards : c2.cards.filter (fun c => decide (c.nid = ν)) =
              col.cards.filter (fun c => decide (c.nid = ν)) := by
            unfold _change_note_type at hcn
            cases hb : tm.by_name an.model with
            | none => rw [hb] at hcn; exact absurd hcn (by simp)
            | some old =>
                rw [hb] at hcn
                simp only at hcn
                cases hf : (col.models_change tm an.nid tw.model
                    (tm.fmapFn old.name tw.model)
                    (tm.cmapFn old.name tw.model)).notes.find?
                    (fun n => decide (n.nid = an.nid)) with
                | none => rw [hf] at hcn; exact absurd hcn (by simp)
                | some nr =>
                    rw [hf] at hcn
                    simp only [Except.ok.injEq, Prod.mk.injEq] at hcn
                    obtain ⟨rfl, -⟩ := hcn
                    have hnil : ∀ (L : List Nat) (dflt : Nat),
                        ((L.map (fun o =>
                          ({ cid := col.nextCid + o, nid := an.nid, ord := o,
                             did := dflt, queue := 0, ctype := 0, ivl := 0,
                             factor := 0, lapses := 0, due := 0 } : Card))).filter
                          (fun c => decide (c.nid = ν))) = [] := by
                      intro L dflt
                      rw [List.filter_eq_nil_iff]
                      intro c hc
                      simp only [List.mem_map] at hc
                      obtain ⟨o, -, rfl⟩ := hc
                      simp only [decide_eq_true_eq]
                      exact fun hx => hne hx.symm
                    show ((col.cards.filterMap _) ++ _).filter _ = _
                    rw [List.filter_append, hnil, List.append_nil]
                    apply filter_filterMap_frame
                    · intro c hc
                      simp only [decide_eq_true_eq] at hc
                      rw [if_neg]
                      rw [hc]
                      exact hne
                    · intro c c2 hg
                      by_cases hcn2 : c.nid = an.nid
                      · rw [if_pos hcn2] at hg
                        cases ho : (tm.cmapFn old.name tw.model).getD c.ord none with
                        | none => rw [ho] at hg; exact absurd hg (by simp)
                        | some o =>
                            rw [ho] at hg
                            simp only [Option.some.injEq] at hg
                            rw [← hg]
                      · rw [if_neg hcn2] at hg
                        simp only [Option.some.injEq] at hg
                        rw [← hg]
          have hn2nid : n2.nid = an.nid :=
            (change_note_type_char hcn han hnd).2.1
          by_cases hfe : tw.fields_equal tm n2
          · rw [if_pos hfe] at h
            simp only [Except.ok.injEq, Prod.mk.injEq] at h
            obtain ⟨rfl, -⟩ := h
            rw [(update_deck_preserves tw n2.nid c2 dd ν
              (by rw [hn2nid]; exact hne)).2.2]
            exact hc2cards
          · rw [if_neg hfe] at h
            simp only [Except.ok.injEq, Prod.mk.injEq] at h
            obtain ⟨rfl, -⟩ := h
            rw [(update_deck_preserves tw (tw.update_fields tm n2).nid _ dd ν
              (by show ν ≠ n2.nid; rw [hn2nid]; exact hne)).2.2]
            exact hc2cards

/-- One source note fully reconciled in a state: a target note with its id at
note id ν carries its declared type and rendered fields, the resolved deck
exists, and every card of ν sits in it. -/
def EstablishedAtN (tm : TrModels) (tws : List TwNote) (dd : String)
    (c : Col) (i : Twid) (ν : Nat) : Prop :=
  ∃ tw n0, lookupTw tws i = some tw ∧ n0 ∈ c.notes ∧ n0.nid = ν ∧
    twidOf tm n0 = i ∧ n0.model = tw.model ∧ n0.fields = renderFields tm tw ∧
    ∃ dv, lookupKey (deckNameFor tw dd) c.decks = some dv ∧
      ∀ cd ∈ c.cards, cd.nid = ν → cd.did = dv

theorem EstablishedAtN.preserve {tm : TrModels} {tws : List TwNote}
    {dd : String} {cA cB : Col} {i : Twid} {ν : Nat}
    (hp : Preserves ν cA cB) (he : EstablishedAtN tm tws dd cA i ν) :
    EstablishedAtN tm tws dd cB i ν := by
  obtain ⟨tw, n0, h1, h2, h3, h4, h5, h6, dv, h7, h8⟩ := he
  refine ⟨tw, n0, h1, hp.1 n0 h2 h3, h3, h4, h5, h6, dv, hp.2.1 _ _ h7, ?_⟩
  intro cd hcd hnid
  have hmem : cd ∈ cB.cards.filter (fun c => decide (c.nid = ν)) :=
    List.mem_filter.mpr ⟨hcd, by simp [hnid]⟩
  rw [hp.2.2] at hmem
  exact h8 cd (List.mem_filter.mp hmem).1 hnid

theorem remove_notes_preserves (c : Col) (nids : List Nat) (ν : Nat)
    (hν : ν ∉ nids) : Preserves ν c (c.remove_notes nids) := by
  refine ⟨?_, ?_, ?_⟩
  · intro n hn hnid
    simp only [Col.remove_notes, List.mem_filter, decide_eq_true_eq]
    exact ⟨hn, by rw [hnid]; exact hν⟩
  · intro nm dv h
    exact h
  · show (c.cards.filter _).filter _ = _
    rw [List.filter_comm]
    apply List.filter_eq_self.mpr
    intro cd hcd
    have : cd.nid = ν := by
      have := (List.mem_filter.mp hcd).2
      simpa using this
    simp only [decide_eq_true_eq]
    rw [this]
    exact hν

theorem update_deck_decks (tw : TwNote) (nid : Nat) (col : Col) (dd : String) :
    (_update_deck tw nid col dd).1.decks =
      (col.decks_id (deckNameFor tw dd)).1.decks := by
  simp [_update_deck]

theorem update_deck_forces (tw : TwNote) (nid : Nat) (col : Col) (dd : String) :
    ∀ c ∈ (_update_deck tw nid col dd).1.cards, c.nid = nid →
      c.did = (col.decks_id (deckNameFor tw dd)).2 := by
  intro c hc hnid
  simp only [_update_deck, decks_id_cards, List.mem_map] at hc
  obtain ⟨a, ha, rfl⟩ := hc
  by_cases hcond : a.nid = nid ∧ a.did ≠ (col.decks_id (deckNameFor tw dd)).2
  · simp [hcond]
  · simp only [if_neg hcond] at hnid ⊢
    rcases not_and_or.mp hcond with h1 | h2
    · exact absurd hnid h1
    · exact not_not.mp h2

theorem editOne_establishes {tm : TrModels} {tw : TwNote} {an : AnkiNote}
    {col : Col} {dd : String} {col1 : Col} {d : Nat} {ev : List Event}
    (h : editOne tm tw an col dd = Except.ok (col1, d, ev))
    (han : an ∈ col.notes)
    (hnd : (col.notes.map AnkiNote.nid).Nodup) :
    ∃ dv, lookupKey (deckNameFor tw dd) col1.decks = some dv ∧
      ∀ cd ∈ col1.cards, cd.nid = an.nid → cd.did = dv := by
  unfold editOne at h
  by_cases hme : tw.model_equal an
  · rw [if_pos hme] at h
    simp only at h
    by_cases hfe : tw.fields_equal tm an
    · rw [if_pos hfe] at h
      simp only [Except.ok.injEq, Prod.mk.injEq] at h
      obtain ⟨rfl, -⟩ := h
      refine ⟨(col.decks_id (deckNameFor tw dd)).2, ?_, ?_⟩
      · rw [update_deck_decks]
        exact decks_id_lookup_self col _
      · exact update_deck_forces tw an.nid col dd
    · rw [if_neg hfe] at h
      simp only [Except.ok.injEq, Prod.mk.injEq] at h
      obtain ⟨rfl, -⟩ := h
      refine ⟨(({ col with notes := col.notes.map (fun n =>
          if n.nid = (tw.update_fields tm an).nid then tw.update_fields tm an
          else n) } : Col).decks_id (deckNameFor tw dd)).2, ?_, ?_⟩
      · rw [update_deck_decks]
        exact decks_id_lookup_self _ _
      · exact update_deck_forces tw an.nid _ dd
  · rw [if_neg hme] at h
    cases hcn : _change_note_type tm col tw an with
    | error e => rw [hcn] at h; exact absurd h (by simp)
    | ok p =>
        obtain ⟨c2, n2⟩ := p
        rw [hcn] at h
        simp only at h
        have hn2nid : n2.nid = an.nid :=
          (change_note_type_char hcn han hnd).2.1
        by_cases hfe : tw.fields_equal tm n2
        · rw [if_pos hfe] at h
          simp only [Except.ok.injEq, Prod.mk.injEq] at h
          obtain ⟨rfl, -⟩ := h
          refine ⟨(c2.decks_id (deckNameFor tw dd)).2, ?_, ?_⟩
          · rw [update_deck_decks]
            exact decks_id_lookup_self _ _
          · intro cd hcd hnid
            exact update_deck_forces tw n2.nid c2 dd cd hcd (by rw [hnid, hn2nid])
        · rw [if_neg hfe] at h
          simp only [Except.ok.injEq, Prod.mk.injEq] at h
          obtain ⟨rfl, -⟩ := h
          refine ⟨(({ c2 with notes := c2.notes.map (fun n =>
              if n.nid = (tw.update_fields tm n2).nid then tw.update_fields tm n2
              else n) } : Col).decks_id (deckNameFor tw dd)).2, ?_, ?_⟩
          · rw [update_deck_decks]
            exact decks_id_lookup_self _ _
          · intro cd hcd hnid
            refine update_deck_forces tw (tw.update_fields tm n2).nid _ dd cd hcd ?_
            show cd.nid = n2.nid
            rw [hnid, hn2nid]

/-- Every card id is below the fresh-id counter. -/
def cardsBelow (col : Col) : Prop := ∀ c ∈ col.cards, c.nid < col.nextNid

theorem addOne_decks (tm : TrModels) (tw : TwNote) (col : Col) (dd : String) :
    (addOne tm tw col dd).1.decks =
      (col.decks_id (deckNameFor tw dd)).1.decks := by
  show (_set_initial_scheduling tw col.nextNid _).1.decks = _
  rw [set_initial_scheduling_decks]

theorem addOne_cards_shape (tm : TrModels) (tw : TwNote) (col : Col)
    (dd : String) :
    ∃ g : Card → Card, (∀ c, (g c).nid = c.nid ∧ (g c).did = c.did) ∧
      (addOne tm tw col dd).1.cards =
        (col.cards ++ (List.range (match tm.by_name tw.model with
          | some m => m.templateCount
          | none => 0)).map (fun o =>
          { cid := (col.decks_id (deckNameFor tw dd)).1.nextCid + o,
            nid := col.nextNid, ord := o,
            did := (col.decks_id (deckNameFor tw dd)).2,
            queue := 0, ctype := 0, ivl := 0, factor := 0, lapses := 0,
            due := 0 : Card })).map g := by
  obtain ⟨g, hg, hgp⟩ := set_initial_scheduling_cards_shape tw col.nextNid
    { (col.decks_id (deckNameFor tw dd)).1 with
      notes := (col.decks_id (deckNameFor tw dd)).1.notes ++
        [{ nid := col.nextNid, model := tw.model, fields := renderFields tm tw }],
      cards := (col.decks_id (deckNameFor tw dd)).1.cards ++
        (List.range (match tm.by_name tw.model with
          | some m => m.templateCount
          | none => 0)).map (fun o =>
          { cid := (col.decks_id (deckNameFor tw dd)).1.nextCid + o,
            nid := col.nextNid, ord := o,
            did := (col.decks_id (deckNameFor tw dd)).2,
            queue := 0, ctype := 0, ivl := 0, factor := 0, lapses := 0,
            due := 0 : Card }),
      nextNid := col.nextNid + 1,
      nextCid := (col.decks_id (deckNameFor tw dd)).1.nextCid +
        (match tm.by_name tw.model with
          | some m => m.templateCount
          | none => 0) }
  refine ⟨g, fun c => ⟨(hgp c).1, (hgp c).2.1⟩, ?_⟩
  show (_set_initial_scheduling tw col.nextNid _).1.cards = _
  rw [hg]
  rw [decks_id_cards]

theorem addOne_cardsBelow (tm : TrModels) (tw : TwNote) (col : Col)
    (dd : String) (h : cardsBelow col) :
    cardsBelow (addOne tm tw col dd).1 := by
  intro c hc
  obtain ⟨g, hgp, hcards⟩ := addOne_cards_shape tm tw col dd
  rw [hcards] at hc
  rw [addOne_nextNid]
  obtain ⟨a, ha, rfl⟩ := List.mem_map.mp hc
  rw [(hgp a).1]
  rcases List.mem_append.mp ha with h1 | h1
  · have := h a h1
    omega
  · obtain ⟨o, -, rfl⟩ := List.mem_map.mp h1
    simp only
    omega

theorem addOne_forces (tm : TrModels) (tw : TwNote) (col : Col) (dd : String)
    (hfresh : ∀ c ∈ col.cards, c.nid ≠ col.nextNid) :
    ∀ c ∈ (addOne tm tw col dd).1.cards, c.nid = col.nextNid →
      c.did = (col.decks_id (deckNameFor tw dd)).2 := by
  intro c hc hnid
  obtain ⟨g, hgp, hcards⟩ := addOne_cards_shape tm tw col dd
  rw [hcards] at hc
  obtain ⟨a, ha, rfl⟩ := List.mem_map.mp hc
  rw [(hgp a).1] at hnid
  rw [(hgp a).2]
  rcases List.mem_append.mp ha with h1 | h1
  · exact absurd hnid (hfresh a h1)
  · obtain ⟨o, -, rfl⟩ := List.mem_map.mp h1
    rfl

theorem addOne_establishes (tm : TrModels) (tws : List TwNote) (dd : String)
    {i : Twid} {tw : TwNote} (col : Col)
    (hlk : lookupTw tws i = some tw) (hid : tw.id_ = i)
    (hm : ∃ m, tm.by_name tw.model = some m ∧ tm.idField ∈ m.fieldNames)
    (hfresh : ∀ c ∈ col.cards, c.nid ≠ col.nextNid) :
    EstablishedAtN tm tws dd (addOne tm tw col dd).1 i col.nextNid := by
  obtain ⟨m, hm1, hm2⟩ := hm
  refine ⟨tw,
    ({ nid := col.nextNid, model := tw.model,
       fields := renderFields tm tw } : AnkiNote), hlk, ?_, rfl, ?_, rfl, rfl,
    (col.decks_id (deckNameFor tw dd)).2, ?_, ?_⟩
  · rw [addOne_notes]
    exact List.mem_append_right _ (List.mem_singleton.mpr rfl)
  · rw [twidOf_renderFields hm1 hm2, hid]
  · rw [addOne_decks]
    exact decks_id_lookup_self _ _
  · exact addOne_forces tm tw col dd hfresh

theorem runAdds_establishes (tm : TrModels) (tws : List TwNote) (dd : String) :
    ∀ (ids : List Twid) (col : Col) (evs : List Event),
      (∀ i ∈ ids, ∃ tw, lookupTw tws i = some tw ∧ tw.id_ = i ∧
          ∃ m, tm.by_name tw.model = some m ∧ tm.idField ∈ m.fieldNames) →
      cardsBelow col →
      ∀ i ∈ ids, ∃ ν, col.nextNid ≤ ν ∧
        EstablishedAtN tm tws dd
          (runAdds tm (lookupTw tws) dd ids col evs).1 i ν := by
  intro ids
  induction ids with
  | nil => intro col evs _ _ i hi; cases hi
  | cons j rest ih =>
      intro col evs hids hcb i hi
      obtain ⟨tw, hlk, hid, hm⟩ := hids j (List.mem_cons_self j rest)
      simp only [runAdds]
      rw [hlk]
      dsimp only
      rcases List.mem_cons.mp hi with rfl | hi2
      · refine ⟨col.nextNid, le_refl _, ?_⟩
        refine EstablishedAtN.preserve ?_
          (addOne_establishes tm tws dd col hlk hid hm
            (fun c hc => by have := hcb c hc; omega))
        apply runAdds_preserves
        rw [addOne_nextNid]
        omega
      · obtain ⟨ν, hν, he⟩ := ih (addOne tm tw col dd).1
          (evs ++ (addOne tm tw col dd).2)
          (fun k hk => hids k (List.mem_cons_of_mem j hk))
          (addOne_cardsBelow tm tw col dd hcb) i hi2
        rw [addOne_nextNid] at hν
        exact ⟨ν, by omega, he⟩

/-- The per-id facts the edit loop needs about its lookup maps and the
current state. -/
def EditHyp (tm : TrModels) (lkTw : Twid → Option TwNote)
    (lkAnki : Twid → Option AnkiNote) (col : Col) (i : Twid) : Prop :=
  ∃ tw an, lkTw i = some tw ∧ lkAnki i = some an ∧
    tw.id_ = i ∧ twidOf tm an = i ∧ an ∈ col.notes ∧
    (tm.by_name an.model).isSome ∧
    ∃ m, tm.by_name tw.model = some m ∧ tm.idField ∈ m.fieldNames

theorem editHyp_step {tm : TrModels} {lkTw : Twid → Option TwNote}
    {lkAnki : Twid → Option AnkiNote} {j : Twid} {rest : List Twid}
    {col colm : Col} {tw : TwNote} {an : AnkiNote} {dd : String} {d : Nat}
    {ev : List Event}
    (h3 : editOne tm tw an col dd = Except.ok (colm, d, ev))
    (hmem : an ∈ col.notes)
    (hnd : (col.notes.map AnkiNote.nid).Nodup)
    (htwid : twidOf tm an = j) (hjrest : j ∉ rest)
    (hids : ∀ i ∈ j :: rest, EditHyp tm lkTw lkAnki col i) :
    ∀ i ∈ rest, EditHyp tm lkTw lkAnki colm i := by
  intro i hi
  obtain ⟨tw2, an2, g1, g2, g3, g4, g5, g6, g7⟩ :=
    hids i (List.mem_cons_of_mem j hi)
  obtain ⟨repl, hshape, hreplnid, -, -, -⟩ := editOne_notes_shape h3 hmem hnd
  refine ⟨tw2, an2, g1, g2, g3, g4, ?_, g6, g7⟩
  have hji : i ≠ j := fun he => hjrest (he ▸ hi)
  have hne : an2.nid ≠ an.nid := by
    intro he
    have heq : an2 = an := eq_of_nid_nodup hnd g5 hmem he
    rw [heq, htwid] at g4
    exact hji g4.symm
  rw [hshape]
  refine List.mem_map.mpr ⟨an2, g5, ?_⟩
  rw [if_neg hne]

theorem runEdits_preserves (tm : TrModels) (lkTw : Twid → Option TwNote)
    (lkAnki : Twid → Option AnkiNote) (dd : String) :
    ∀ (ids : List Twid) (col : Col) (cnt : Nat) (evs : List Event)
      (col' : Col) (cnt' : Nat) (evs' : List Event) (ν : Nat),
      runEdits tm lkTw lkAnki dd ids col cnt evs = (col', cnt', evs', none) →
      ids.Nodup →
      (col.notes.map AnkiNote.nid).Nodup →
      (∀ i ∈ ids, EditHyp tm lkTw lkAnki col i) →
      (∀ i ∈ ids, ∀ an, lkAnki i = some an → an.nid ≠ ν) →
      Preserves ν col col' := by
  intro ids
  induction ids with
  | nil =>
      intro col cnt evs col' cnt' evs' ν h _ _ _ _
      simp only [runEdits, Prod.mk.injEq] at h
      obtain ⟨rfl, -, -, -⟩ := h
      exact Preserves.refl ν col
  | cons j rest ih =>
      intro col cnt evs col' cnt' evs' ν h hidnd hnd hids hν
      obtain ⟨tw, an, h1, h2, hid, htwid, hmem, hrec, hm⟩ :=
        hids j (List.mem_cons_self j rest)
      simp only [runEdits] at h
      rw [h1, h2] at h
      simp only at h
      cases h3 : editOne tm tw an col dd with
      | error e => rw [h3] at h; simp at h
      | ok p =>
          obtain ⟨colm, dm, evm⟩ := p
          rw [h3] at h
          simp only at h
          have hnids : colm.notes.map AnkiNote.nid = col.notes.map AnkiNote.nid :=
            editOne_nids h3 hmem hnd
          refine Preserves.trans
            (editOne_preserves h3 hmem hnd ν
              (fun he => hν j (List.mem_cons_self j rest) an h2 he.symm)) ?_
          exact ih colm (cnt + dm) (evs ++ evm) col' cnt' evs' ν h
            (List.nodup_cons.mp hidnd).2 (by rw [hnids]; exact hnd)
            (editHyp_step h3 hmem hnd (by rw [htwid])
              (List.nodup_cons.mp hidnd).1 hids)
            (fun i hi an2 ha2 => hν i (List.mem_cons_of_mem j hi) an2 ha2)

theorem runEdits_establishes (tm : TrModels) (tws : List TwNote)
    (lkAnki : Twid → Option AnkiNote) (dd : String) :
    ∀ (ids : List Twid) (col : Col) (cnt : Nat) (evs : List Event)
      (col' : Col) (cnt' : Nat) (evs' : List Event),
      runEdits tm (lookupTw tws) lkAnki dd ids col cnt evs =
        (col', cnt', evs', none) →
      ids.Nodup →
      (col.notes.map AnkiNote.nid).Nodup →
      (∀ i ∈ ids, EditHyp tm (lookupTw tws) lkAnki col i) →
      ∀ i ∈ ids, ∀ an, lkAnki i = some an →
        EstablishedAtN tm tws dd col' i an.nid := by
  intro ids
  induction ids with
  | nil => intro col cnt evs col' cnt' evs' _ _ _ _ i hi; cases hi
  | cons j rest ih =>
      intro col cnt evs col' cnt' evs' h hidnd hnd hids i hi an0 han0
      obtain ⟨tw, an, h1, h2, hid, htwid, hmem, hrec, hm⟩ :=
        hids j (List.mem_cons_self j rest)
      simp only [runEdits] at h
      rw [h1, h2] at h
      simp only at h
      cases h3 : editOne tm tw an col dd with
      | error e => rw [h3] at h; simp at h
      | ok p =>
          obtain ⟨colm, dm, evm⟩ := p
          rw [h3] at h
          simp only at h
          have hnids : colm.notes.map AnkiNote.nid = col.notes.map AnkiNote.nid :=
            editOne_nids h3 hmem hnd
          rcases List.mem_cons.mp hi with rfl | hi2
          · rw [h2] at han0
            simp only [Option.some.injEq] at han0
            subst han0
            obtain ⟨repl, hshape, hreplnid, hreplmodel, hreplfields, -⟩ :=
              editOne_notes_shape h3 hmem hnd
            obtain ⟨m, hm1, hm2⟩ := hm
            obtain ⟨dv, hdv1, hdv2⟩ := editOne_establishes h3 hmem hnd
            have hbase : EstablishedAtN tm tws dd colm i an.nid := by
              refine ⟨tw, repl, h1, ?_, hreplnid, ?_, hreplmodel, hreplfields,
                dv, hdv1, fun cd hcd hnid => hdv2 cd hcd hnid⟩
              · rw [hshape]
                refine List.mem_map.mpr ⟨an, hmem, ?_⟩
                simp
              · rw [twidOf_fields_renderFields hm1 hm2 hreplfields, hid]
            refine EstablishedAtN.preserve ?_ hbase
            refine runEdits_preserves tm (lookupTw tws) lkAnki dd rest colm
              (cnt + dm) (evs ++ evm) col' cnt' evs' an.nid h
              (List.nodup_cons.mp hidnd).2 (by rw [hnids]; exact hnd)
              (editHyp_step h3 hmem hnd (by rw [htwid])
                (List.nodup_cons.mp hidnd).1 hids) ?_
            intro k hk an2 ha2 he
            obtain ⟨tw2, an2x, g1, g2, g3, g4, g5, g6, g7⟩ :=
              hids k (List.mem_cons_of_mem i hk)
            rw [g2] at ha2
            simp only [Option.some.injEq] at ha2
            rw [← ha2] at he
            have heq : an2x = an := eq_of_nid_nodup hnd g5 hmem he
            rw [heq, htwid] at g4
            have hki : k ≠ i := fun hek => (List.nodup_cons.mp hidnd).1 (hek ▸ hk)
            exact hki g4.symm
          · exact ih colm (cnt + dm) (evs ++ evm) col' cnt' evs' h
              (List.nodup_cons.mp hidnd).2 (by rw [hnids]; exact hnd)
              (editHyp_step h3 hmem hnd (by rw [htwid])
                (List.nodup_cons.mp hidnd).1 hids) i hi2 an0 han0

theorem editOne_noop {tm : TrModels} {tw : TwNote} {an : AnkiNote}
    {colF : Col} {dd : String}
    (hmodel : an.model = tw.model)
    (hfields : an.fields = renderFields tm tw)
    (hdeck : ∃ dv, lookupKey (deckNameFor tw dd) colF.decks = some dv ∧
      ∀ cd ∈ colF.cards, cd.nid = an.nid → cd.did = dv) :
    editOne tm tw an colF dd =
      Except.ok (colF, 0, [Event.fieldCompared tw.id_ an.model]) := by
  obtain ⟨dv, hdv1, hdv2⟩ := hdeck
  have hme : tw.model_equal an = true := by
    simp [TwNote.model_equal, hmodel]
  have hfe : tw.fields_equal tm an = true := by
    simp [TwNote.fields_equal, hfields]
  have hdid : colF.decks_id (deckNameFor tw dd) = (colF, dv) := by
    unfold Col.decks_id
    rw [hdv1]
  have hud : _update_deck tw an.nid colF dd = (colF, []) := by
    have hmap : colF.cards.map (fun c =>
        if c.nid = an.nid ∧ c.did ≠ dv then { c with did := dv } else c) =
        colF.cards := by
      apply map_eq_self_of
      intro c hc
      rw [if_neg]
      intro hcond
      exact hcond.2 (hdv2 c hc hcond.1)
    have hfil : colF.cards.filter
        (fun c => decide (c.nid = an.nid ∧ c.did ≠ dv)) = [] := by
      rw [List.filter_eq_nil_iff]
      intro c hc
      simp only [decide_eq_true_eq]
      intro hcond
      exact hcond.2 (hdv2 c hc hcond.1)
    simp only [_update_deck]
    rw [hdid]
    dsimp only
    rw [hmap, hfil]
    rfl
  unfold editOne
  rw [hme]
  simp only [if_true]
  rw [hfe]
  simp only [if_true]
  rw [hud]
  rfl

theorem runEdits_noop (tm : TrModels) (tws : List TwNote) (dd : String)
    (colF : Col) :
    ∀ (ids : List Twid) (evs : List Event),
      (∀ i ∈ ids, ∃ tw an, lookupTw tws i = some tw ∧
          lookupAnki tm colF i = some an ∧ an.model = tw.model ∧
          an.fields = renderFields tm tw ∧
          ∃ dv, lookupKey (deckNameFor tw dd) colF.decks = some dv ∧
            ∀ cd ∈ colF.cards, cd.nid = an.nid → cd.did = dv) →
      ∃ evfc, runEdits tm (lookupTw tws) (lookupAnki tm colF) dd ids colF 0 evs =
        (colF, 0, evs ++ evfc, none) ∧
        ∀ e ∈ evfc, ∃ j mn, e = Event.fieldCompared j mn := by
  intro ids
  induction ids with
  | nil =>
      intro evs _
      exact ⟨[], by simp [runEdits], by simp⟩
  | cons j rest ih =>
      intro evs hids
      obtain ⟨tw, an, h1, h2, hmodel, hfields, hdeck⟩ :=
        hids j (List.mem_cons_self j rest)
      obtain ⟨evfc, hrec, hshape⟩ := ih (evs ++ [Event.fieldCompared tw.id_ an.model])
        (fun k hk => hids k (List.mem_cons_of_mem j hk))
      refine ⟨Event.fieldCompared tw.id_ an.model :: evfc, ?_, ?_⟩
      · simp only [runEdits]
        rw [h1, h2]
        dsimp only
        rw [editOne_noop hmodel hfields hdeck]
        dsimp only
        rw [hrec]
        rw [List.append_assoc]
        rfl
      · intro e he
        rcases List.mem_cons.mp he with rfl | he2
        · exact ⟨tw.id_, an.model, rfl⟩
        · exact hshape e he2

theorem lookupTw_some_props {tws : List TwNote} {i : Twid} {tw : TwNote}
    (h : lookupTw tws i = some tw) : tw.id_ = i ∧ tw ∈ tws := by
  constructor
  · have := List.find?_some h
    simpa using this
  · exact List.mem_reverse.mp (List.mem_of_find?_eq_some h)

/-- C3: running sync a second time with the source set unchanged, on the
state a completed first run left behind, performs zero field writes and zero
card group moves, and its summary reports zero updated notes (and zero added
and removed). -/
theorem sync_idempotent (tm : TrModels) (tws : List TwNote) (col : Col)
    (dd : String) (l : String)
    (hok : (sync tm tws col dd).outcome = SyncOutcome.ok l)
    (H1 : ∀ tw ∈ tws, (tm.by_name tw.model).isSome)
    (H2 : ∀ m ∈ tm.models, tm.idField ∈ m.fieldNames)
    (H3 : (col.notes.map AnkiNote.nid).Nodup)
    (H4 : ∀ n ∈ col.notes, n.nid < col.nextNid)
    (H5 : (recognizedTwids tm col).Nodup)
    (H7 : ∀ c ∈ col.cards, c.nid < col.nextNid) :
    countFieldWrites (sync tm tws (sync tm tws col dd).col dd).events = 0 ∧
    countCardMoves (sync tm tws (sync tm tws col dd).col dd).events = 0 ∧
    (sync tm tws (sync tm tws col dd).col dd).outcome =
      SyncOutcome.ok "Added 0 notes.\nUpdated 0 notes.\nRemoved 0 notes." := by
  have hcov := coverage_aux tm tws col dd l hok H1 H2 H3 H4 H5
  obtain ⟨col2, cnt2, ev2, hE, hcol⟩ := sync_ok_split tm tws col dd l hok
  set colF := (sync tm tws col dd).col with hcolF
  have Hsrc : ∀ tw ∈ tws, ∃ m, tm.by_name tw.model = some m ∧
      tm.idField ∈ m.fieldNames := by
    intro tw htw
    cases hbn : tm.by_name tw.model with
    | none => exact absurd (H1 tw htw) (by simp [hbn])
    | some m => exact ⟨m, rfl, H2 m (by_name_mem hbn)⟩
  have hAddsHyp : ∀ i ∈ addsOf tm tws col, ∃ tw, lookupTw tws i = some tw ∧
      tw.id_ = i ∧ ∃ m, tm.by_name tw.model = some m ∧
        tm.idField ∈ m.fieldNames := by
    intro i hi
    simp only [addsOf, idDiffAdds, List.mem_filter] at hi
    have himem : i ∈ tws.map TwNote.id_ := by
      have := hi.1
      simpa [extractedTwids, List.mem_dedup] using this
    obtain ⟨tw, g1, g2, g3⟩ := lookupTw_mem himem
    exact ⟨tw, g1, g2, Hsrc tw g3⟩
  obtain ⟨L, hLnotes, hLtwids, hLrec, hLnids, hLnext⟩ :=
    runAdds_char tm (lookupTw tws) dd (addsOf tm tws col) col [] hAddsHyp
  have hndAdd : ((runAdds tm (lookupTw tws) dd (addsOf tm tws col) col
      []).1.notes.map AnkiNote.nid).Nodup := by
    rw [hLnotes, List.map_append, hLnids, List.nodup_append]
    refine ⟨H3, List.nodup_range' _ _, ?_⟩
    intro a ha hb
    obtain ⟨n, hn, rfl⟩ := List.mem_map.mp ha
    have h1 := H4 n hn
    have h2 := (List.mem_range'_1.mp hb).1
    omega
  have hEditsHyp : ∀ i ∈ editsOf tm tws col,
      EditHyp tm (lookupTw tws) (lookupAnki tm col)
        (runAdds tm (lookupTw tws) dd (addsOf tm tws col) col []).1 i := by
    intro i hi
    simp only [editsOf, idDiffEdits, List.mem_filter, decide_eq_true_eq] at hi
    obtain ⟨hiext, hianki⟩ := hi
    have himem : i ∈ tws.map TwNote.id_ := by
      simpa [extractedTwids, List.mem_dedup] using hiext
    obtain ⟨tw, g1, g2, g3⟩ := lookupTw_mem himem
    obtain ⟨an, f1, f2, f3⟩ := lookupAnki_mem hianki
    have f4 := find_notes_model_mem.mp f3
    exact ⟨tw, an, g1, f1, g2, f2,
      by rw [hLnotes]; exact List.mem_append_left _ f4.1, f4.2, Hsrc tw g3⟩
  have hedNodup : (editsOf tm tws col).Nodup :=
    List.Nodup.filter _ (List.nodup_dedup _)
  obtain ⟨hproj, hnids2, -⟩ := runEdits_proj tm (lookupTw tws)
    (lookupAnki tm col) dd (editsOf tm tws col)
    (runAdds tm (lookupTw tws) dd (addsOf tm tws col) col []).1 0
    (runAdds tm (lookupTw tws) dd (addsOf tm tws col) col []).2
    col2 cnt2 ev2 hE hedNodup hndAdd (fun i hi => hEditsHyp i hi)
  have hremlt : ∀ v ∈ (removesOf tm tws col).filterMap
      (fun i => (lookupAnki tm col i).map AnkiNote.nid), v < col.nextNid := by
    intro v hv
    simp only [List.mem_filterMap] at hv
    obtain ⟨i, hi, hvi⟩ := hv
    cases hla : lookupAnki tm col i with
    | none => rw [hla] at hvi; simp at hvi
    | some an =>
        rw [hla] at hvi
        simp only [Option.map_some', Option.some.injEq] at hvi
        subst hvi
        have := (lookupAnki_some_props hla).2
        exact H4 an (find_notes_model_mem.mp this).1
  have hmemiff : ∀ x, x ∈ recognizedTwids tm colF ↔ x ∈ tws.map TwNote.id_ := by
    intro x
    constructor
    · intro hx
      have h9 : x ∈ (recognizedTwids tm colF).toFinset := List.mem_toFinset.mpr hx
      rw [hcov] at h9
      exact List.mem_toFinset.mp h9
    · intro hx
      have h9 : x ∈ (tws.map TwNote.id_).toFinset := List.mem_toFinset.mpr hx
      rw [← hcov] at h9
      exact List.mem_toFinset.mp h9
  have hankiF : ∀ x, x ∈ ankiTwids tm colF ↔ x ∈ extractedTwids tws := by
    intro x
    rw [ankiTwids, List.mem_dedup, extractedTwids, List.mem_dedup]
    exact hmemiff x
  have hEst : ∀ i ∈ extractedTwids tws, ∃ ν,
      EstablishedAtN tm tws dd colF i ν := by
    intro i hi
    have himem : i ∈ tws.map TwNote.id_ := by
      simpa [extractedTwids, List.mem_dedup] using hi
    by_cases hia : i ∈ ankiTwids tm col
    · have hie : i ∈ editsOf tm tws col := by
        simp only [editsOf, idDiffEdits, List.mem_filter, decide_eq_true_eq]
        exact ⟨hi, hia⟩
      obtain ⟨an, hla, hlt, hlf⟩ := lookupAnki_mem hia
      have hest2 := runEdits_establishes tm tws (lookupAnki tm col) dd
        (editsOf tm tws col)
        (runAdds tm (lookupTw tws) dd (addsOf tm tws col) col []).1 0
        (runAdds tm (lookupTw tws) dd (addsOf tm tws col) col []).2
        col2 cnt2 ev2 hE hedNodup hndAdd hEditsHyp i hie an hla
      refine ⟨an.nid, EstablishedAtN.preserve ?_ hest2⟩
      rw [hcol]
      apply remove_notes_preserves
      intro hmem
      simp only [List.mem_filterMap] at hmem
      obtain ⟨k, hk, hvk⟩ := hmem
      cases hla2 : lookupAnki tm col k with
      | none => rw [hla2] at hvk; simp at hvk
      | some an2 =>
          rw [hla2] at hvk
          simp only [Option.map_some', Option.some.injEq] at hvk
          have h2props := lookupAnki_some_props hla2
          have heq : an2 = an := eq_of_nid_nodup H3
            (find_notes_model_mem.mp h2props.2).1
            (find_notes_model_mem.mp hlf).1 hvk
          have hkx : k = i := by rw [← h2props.1, heq, hlt]
          subst hkx
          simp only [removesOf, idDiffRemoves, List.mem_filter,
            decide_eq_true_eq] at hk
          exact hk.2 hi
    · have hiadd : i ∈ addsOf tm tws col := by
        simp only [addsOf, idDiffAdds, List.mem_filter]
        exact ⟨hi, by simpa using hia⟩
      obtain ⟨ν, hν, hest1⟩ := runAdds_establishes tm tws dd (addsOf tm tws col)
        col [] hAddsHyp H7 i hiadd
      have hstep2 : Preserves ν
          (runAdds tm (lookupTw tws) dd (addsOf tm tws col) col []).1 col2 := by
        refine runEdits_preserves tm (lookupTw tws) (lookupAnki tm col) dd
          (editsOf tm tws col) _ 0 _ col2 cnt2 ev2 ν hE hedNodup hndAdd
          hEditsHyp ?_
        intro k hk an2 ha2 he
        have h2props := lookupAnki_some_props ha2
        have := H4 an2 (find_notes_model_mem.mp h2props.2).1
        omega
      refine ⟨ν, EstablishedAtN.preserve (Preserves.trans hstep2 ?_) hest1⟩
      rw [hcol]
      apply remove_notes_preserves
      intro hmem
      have := hremlt _ hmem
      omega
  have hrecAdd : recognizedTwids tm
      (runAdds tm (lookupTw tws) dd (addsOf tm tws col) col []).1 =
      recognizedTwids tm col ++ addsOf tm tws col := by
    unfold recognizedTwids Col.find_notes_model
    rw [hLnotes, List.filter_append, List.map_append]
    congr 1
    rw [List.filter_eq_self.mpr hLrec]
    exact hLtwids
  have hrec2 : recognizedTwids tm col2 = recognizedTwids tm
      (runAdds tm (lookupTw tws) dd (addsOf tm tws col) col []).1 := by
    rw [recognizedTwids_proj tm col2, recognizedTwids_proj tm _, hproj]
  have hndF : (recognizedTwids tm colF).Nodup := by
    have hnd1 : (recognizedTwids tm col2).Nodup := by
      rw [hrec2, hrecAdd, List.nodup_append]
      refine ⟨H5, List.Nodup.filter _ (List.nodup_dedup _), ?_⟩
      intro a ha hb
      simp only [addsOf, idDiffAdds, List.mem_filter, decide_eq_true_eq] at hb
      exact hb.2 (by rw [ankiTwids, List.mem_dedup]; exact ha)
    have hsub : List.Sublist (recognizedTwids tm colF)
        (recognizedTwids tm col2) := by
      rw [hcol]
      unfold recognizedTwids Col.find_notes_model Col.remove_notes
      simp only
      rw [List.filter_comm]
      exact (List.filter_sublist _).map _
    exact hnd1.sublist hsub
  have hinjF : ∀ a ∈ colF.find_notes_model tm, ∀ b ∈ colF.find_notes_model tm,
      twidOf tm a = twidOf tm b → a = b :=
    fun a ha b hb he => List.inj_on_of_nodup_map hndF ha hb he
  have hnoopHyp : ∀ i ∈ extractedTwids tws, ∃ tw an,
      lookupTw tws i = some tw ∧ lookupAnki tm colF i = some an ∧
      an.model = tw.model ∧ an.fields = renderFields tm tw ∧
      ∃ dv, lookupKey (deckNameFor tw dd) colF.decks = some dv ∧
        ∀ cd ∈ colF.cards, cd.nid = an.nid → cd.did = dv := by
    intro i hi
    obtain ⟨ν, hest⟩ := hEst i hi
    obtain ⟨tw, n0, he1, he2, he3, he4, he5, he6, dv, he7, he8⟩ := hest
    obtain ⟨-, htwmem⟩ := lookupTw_some_props he1
    have hob : i ∈ ankiTwids tm colF := (hankiF i).mpr hi
    obtain ⟨an, hla, hlt, hlf⟩ := lookupAnki_mem hob
    have hn0rec : (tm.by_name n0.model).isSome := by
      rw [he5]
      obtain ⟨m, hm1, -⟩ := Hsrc tw htwmem
      simp [hm1]
    have hn0f : n0 ∈ colF.find_notes_model tm :=
      find_notes_model_mem.mpr ⟨he2, hn0rec⟩
    have heqn : an = n0 := hinjF an hlf n0 hn0f (by rw [hlt, he4])
    refine ⟨tw, an, he1, hla, ?_, ?_, dv, he7, ?_⟩
    · rw [heqn, he5]
    · rw [heqn, he6]
    · intro cd hcd hnid
      apply he8 cd hcd
      rw [hnid, heqn, he3]
  obtain ⟨evfc, hrunE2, hevfc⟩ := runEdits_noop tm tws dd colF
    (extractedTwids tws) [] hnoopHyp
  have hadds2 : addsOf tm tws colF = [] := by
    simp only [addsOf, idDiffAdds]
    rw [List.filter_eq_nil_iff]
    intro i hi
    simp only [decide_eq_true_eq]
    exact not_not_intro ((hankiF i).mpr hi)
  have hedits2 : editsOf tm tws colF = extractedTwids tws := by
    simp only [editsOf, idDiffEdits]
    apply List.filter_eq_self.mpr
    intro i hi
    simp only [decide_eq_true_eq]
    exact (hankiF i).mpr hi
  have hrem2 : removesOf tm tws colF = [] := by
    simp only [removesOf, idDiffRemoves]
    rw [List.filter_eq_nil_iff]
    intro i hi
    simp only [decide_eq_true_eq]
    exact not_not_intro ((hankiF i).mp hi)
  have hevents : (sync tm tws colF dd).events = [] ++ evfc := by
    simp only [sync]
    rw [hadds2, hedits2]
    simp only [runAdds]
    rw [hrunE2]
  have houtcome : (sync tm tws colF dd).outcome =
      SyncOutcome.ok "Added 0 notes.\nUpdated 0 notes.\nRemoved 0 notes." := by
    simp only [sync]
    rw [hadds2, hedits2, hrem2]
    simp only [runAdds]
    rw [hrunE2]
    rfl
  refine ⟨?_, ?_, houtcome⟩
  · rw [hevents]
    simp only [List.nil_append, countFieldWrites, List.length_eq_zero]
    rw [List.filter_eq_nil_iff]
    intro e he
    obtain ⟨j, mn, rfl⟩ := hevfc e he
    simp
  · rw [hevents]
    simp only [List.nil_append, countCardMoves, List.length_eq_zero]
    rw [List.filter_eq_nil_iff]
    intro e he
    obtain ⟨j, mn, rfl⟩ := hevfc e he
    simp

/-- Witness for C3 at a concrete first run that adds one note and keeps one. -/
theorem sync_idempotent_witness :
    (sync tmFix [twA, twB] col1 "Default").outcome = SyncOutcome.ok
      "Added 1 note.\nUpdated 0 notes.\nRemoved 0 notes." ∧
    (countFieldWrites (sync tmFix [twA, twB]
        (sync tmFix [twA, twB] col1 "Default").col "Default").events = 0 ∧
     countCardMoves (sync tmFix [twA, twB]
        (sync tmFix [twA, twB] col1 "Default").col "Default").events = 0 ∧
     (sync tmFix [twA, twB]
        (sync tmFix [twA, twB] col1 "Default").col "Default").outcome =
       SyncOutcome.ok "Added 0 notes.\nUpdated 0 notes.\nRemoved 0 notes.") :=
  ⟨by rfl,
   sync_idempotent tmFix [twA, twB] col1 "Default" _ (by rfl) (by decide)
     (by decide) (by decide) (by decide) (by decide) (by decide)⟩

end TiddlyRemember
